import Mathlib

/-- One CSV row: transaction_id, sender_id, receiver_id, amount, timestamp. -/
structure Transaction where
  transaction_id : String
  sender_id : String
  receiver_id : String
  amount : Int
  timestamp : Int
deriving DecidableEq, Repr

/-- Edge attributes stored by `build_graph` (networkx edge data). -/
structure Edge where
  src : String
  tgt : String
  amount : Int
  timestamp : Int
  transaction_id : String
deriving DecidableEq, Repr

/-- A `networkx.DiGraph`: node list in insertion order, at most one edge
per ordered pair of nodes. -/
structure DiGraph where
  nodes : List String
  edges : List Edge
deriving DecidableEq, Repr

/-- Model of `G.add_node`: networkx keeps the first insertion, ignores repeats. -/
def addNode (G : DiGraph) (n : String) : DiGraph :=
  if n ∈ G.nodes then G else { G with nodes := G.nodes ++ [n] }

/-- Whether the digraph has an edge for the ordered pair (u, v)
(`G.has_edge(u, v)`). -/
def hasEdgePair (G : DiGraph) (u v : String) : Bool :=
  G.edges.any (fun e => decide (e.src = u) && decide (e.tgt = v))

/-- Model of `G.add_edge(u, v, **data)` on a `DiGraph`: inserts both endpoints as
nodes, then either overwrites the attributes of the existing (u, v) edge
or appends a new edge.  Repeated transactions between the same ordered
pair therefore collapse to one edge carrying the last attributes. -/
def addEdge (G : DiGraph) (u v : String) (amount timestamp : Int) (txid : String) : DiGraph :=
  let G1 := addNode (addNode G u) v
  if hasEdgePair G1 u v then
    { G1 with edges := G1.edges.map (fun e =>
        if e.src = u ∧ e.tgt = v then { e with amount := amount, timestamp := timestamp, transaction_id := txid } else e) }
  else
    { G1 with edges := G1.edges ++ [⟨u, v, amount, timestamp, txid⟩] }

/-- Model of `build_graph(df)`: fold the transaction rows into a DiGraph. -/
def build_graph (txs : List Transaction) : DiGraph :=
  txs.foldl (fun G t => addEdge G t.sender_id t.receiver_id t.amount t.timestamp t.transaction_id)
    { nodes := [], edges := [] }

/-- Model of `G.in_degree(a)`: number of stored edges whose target is `a`
(a self-loop counts once). -/
def DiGraph.in_degree (G : DiGraph) (a : String) : Nat :=
  (G.edges.filter (fun e => decide (e.tgt = a))).length

/-- Direct successors of a node (targets of its outgoing edges). -/
def successors (G : DiGraph) (u : String) : List String :=
  (G.edges.filter (fun e => decide (e.src = u))).map (·.tgt)

/-- Append an element unless already present (set-like insertion). -/
def insertNew (a : List String) (v : String) : List String :=
  if v ∈ a then a else a ++ [v]

/-- One round of breadth-first expansion: add every successor of every
current member (duplicates skipped, insertion order kept). -/
def reachStep (G : DiGraph) (S : List String) : List String :=
  S.foldl (fun acc u => (successors G u).foldl insertNew acc) S

/-- All nodes reachable from `u` (including `u`): `G.nodes.length`
rounds of expansion suffice on a well-formed graph. -/
def reachSet (G : DiGraph) (u : String) : List String :=
  (reachStep G)^[G.nodes.length] [u]

/-- Decidable reachability test used by the SCC and cycle routines. -/
def reachb (G : DiGraph) (u v : String) : Bool :=
  decide (v ∈ reachSet G u)

/-- The strongly connected component of `u`: all graph nodes mutually
reachable with `u`, in node-list order. -/
def sccOf (G : DiGraph) (u : String) : List String :=
  G.nodes.filter (fun v => reachb G u v && reachb G v u)

/-- Model of `nx.strongly_connected_components(G)`: the SCC partition, one
component per first-encountered representative. -/
def strongly_connected_components (G : DiGraph) : List (List String) :=
  G.nodes.foldl (fun acc u => if acc.any (fun c => decide (u ∈ c)) then acc else acc ++ [sccOf G u]) []

/-- Model of `G.subgraph(C)`: restriction of the digraph to the nodes of `C`. -/
def subgraphOf (G : DiGraph) (C : List String) : DiGraph :=
  { nodes := G.nodes.filter (fun v => decide (v ∈ C)),
    edges := G.edges.filter (fun e => decide (e.src ∈ C) && decide (e.tgt ∈ C)) }

/-- Model of `nx.find_cycle(H)`: it succeeds exactly when `H` contains a directed
cycle: some edge u → w with w reaching back to u. -/
def has_cycle (H : DiGraph) : Bool :=
  H.nodes.any (fun u => (successors H u).any (fun w => reachb H w u))

/-- Decimal digit character. -/
def digitChar (d : Nat) : Char := Char.ofNat (48 + d)

/-- Little-endian decimal digits with explicit fuel (so that the kernel
can evaluate it); agrees with `Nat.digits 10` when the fuel suffices. -/
def decDigitsAux : Nat → Nat → List Nat
  | 0, _ => []
  | _ + 1, 0 => []
  | fuel + 1, n + 1 => (n + 1) % 10 :: decDigitsAux fuel ((n + 1) / 10)

/-- Decimal representation of a number, most significant digit first
(empty for 0, as `Nat.digits`). -/
def decRepr (n : Nat) : List Char := ((decDigitsAux n n).map digitChar).reverse

/-- Python `f"RING_{n:03d}"`: zero-padded to at least three digits. -/
def ringId (n : Nat) : String :=
  let ds := decRepr n
  ⟨"RING_".toList ++ List.replicate (3 - ds.length) '0' ++ ds⟩

/-- One detected ring: its id and its member accounts (the full SCC). -/
structure RingRec where
  ring_id : String
  nodes : List String
deriving DecidableEq, Repr

/-- Loop body of `detect_cycles`: process one strongly connected
component, threading (suspicious_cycles, node_to_ring, ring_counter).
Mirrors the source: the counter advances as soon as a size > 1 component
is seen, before `find_cycle` is attempted. -/
def detectStep (G : DiGraph) (acc : List RingRec × List (String × String) × Nat)
    (component : List String) : List RingRec × List (String × String) × Nat :=
  let cycles := acc.1
  let node_to_ring := acc.2.1
  let ring_counter := acc.2.2
  if component.length > 1 then
    let rid := ringId ring_counter
    if has_cycle (subgraphOf G component) then
      (cycles ++ [⟨rid, component⟩],
       node_to_ring ++ component.map (fun n => (n, rid)),
       ring_counter + 1)
    else
      (cycles, node_to_ring, ring_counter + 1)
  else
    match component with
    | [node] =>
      if hasEdgePair G node node then
        (cycles ++ [⟨ringId ring_counter, [node]⟩],
         node_to_ring ++ [(node, ringId ring_counter)],
         ring_counter + 1)
      else acc
    | _ => acc

/-- Model of `detect_cycles(G)`: one ring per qualifying SCC plus the
node → ring-id mapping. -/
def detect_cycles (G : DiGraph) : List RingRec × List (String × String) :=
  let r := (strongly_connected_components G).foldl (detectStep G) ([], [], 1)
  (r.1, r.2.1)

/-- Model of `detect_high_velocity(G, df)`: an account is flagged when some
incoming timestamp `t_in` has an outgoing timestamp in
`[t_in, t_in + 15]`.  If timestamp parsing failed for the batch the
empty set is returned. -/
def detect_high_velocity (parseOk : Bool) (G : DiGraph) (txs : List Transaction) : List String :=
  if parseOk then
    G.nodes.filter (fun account =>
      let incoming_times := (txs.filter (fun t => decide (t.receiver_id = account))).map (·.timestamp)
      let outgoing_times := (txs.filter (fun t => decide (t.sender_id = account))).map (·.timestamp)
      incoming_times.any (fun tin =>
        outgoing_times.any (fun tout => decide (tin ≤ tout) && decide (tout ≤ tin + 15))))
  else []

/-- Model of `calculate_suspicion_score`: +50 cycle, +min((in_degree-5)*5, 30)
smurfing, +20 velocity, capped at 100. -/
def calculate_suspicion_score (account : String) (G : DiGraph)
    (is_in_cycle is_high_velocity : Bool) : Nat :=
  let score := 0
  let score := if is_in_cycle then score + 50 else score
  let in_degree := G.in_degree account
  let score := if in_degree > 5 then score + min ((in_degree - 5) * 5) 30 else score
  let score := if is_high_velocity then score + 20 else score
  min score 100

/-- Round-half-to-even to an integer (Python `round` on an exact value);
specification-side definition. -/
def roundHalfEven (q : ℚ) : ℤ :=
  let f := ⌊q⌋
  let frac := q - (f : ℚ)
  if frac < 1/2 then f
  else if frac > 1/2 then f + 1
  else if f % 2 = 0 then f else f + 1

/-- Python `round(q, 2)` on an exact rational; specification-side
definition. -/
def round2 (q : ℚ) : ℚ := (roundHalfEven (q * 100) : ℚ) / 100

/-- Round-half-to-even of the fraction `num / den` using only natural
arithmetic (`den ≠ 0` assumed); the executable form of rounding used in
the embedding of `perform_analysis`. -/
def bankersRound (num den : Nat) : Nat :=
  let q := num / den
  let r := num % den
  if 2 * r < den then q
  else if 2 * r > den then q + 1
  else if q % 2 = 0 then q else q + 1

/-- One per-account entry of the analysis result (presentation-only
float fields `val`/`color` and the `flags`/`risk_score` aliases of
`patterns`/`suspicion_score` omitted). -/
structure NodeRec where
  id : String
  suspicion_score : Nat
  patterns : List String
  ring_id : String
deriving DecidableEq, Repr

/-- One transaction edge of the analysis result. -/
structure LinkRec where
  source : String
  target : String
  amount : Int
deriving DecidableEq, Repr

/-- One ring summary of the analysis result.  The 2-decimal rounded
average risk (a Python float) is stored exactly, in hundredths. -/
structure FraudRing where
  ring_id : String
  member_accounts : List String
  pattern_type : String
  risk_score_x100 : Nat
deriving DecidableEq, Repr

/-- The summary block (wall-clock processing time omitted). -/
structure Summary where
  total_accounts_analyzed : Nat
  suspicious_accounts_flagged : Nat
  fraud_rings_detected : Nat
deriving DecidableEq, Repr

/-- The full analysis result assembled by the orchestrator. -/
structure AnalysisResult where
  nodes : List NodeRec
  links : List LinkRec
  fraud_rings : List FraudRing
  risk_summary : List NodeRec
  summary : Summary
deriving DecidableEq, Repr

/-- The per-account entry built inside `perform_analysis`'s scoring loop. -/
def analysisNode (G : DiGraph) (node_to_ring : List (String × String))
    (high_velocity_set : List String) (account : String) : NodeRec :=
  let is_in_cycle := (node_to_ring.lookup account).isSome
  let is_hv := decide (account ∈ high_velocity_set)
  let score := calculate_suspicion_score account G is_in_cycle is_hv
  let patterns := (if is_in_cycle then ["cycle"] else []) ++
    (if G.in_degree account > 5 then ["smurfing"] else []) ++
    (if is_hv then ["layering"] else [])
  { id := account, suspicion_score := score, patterns := patterns,
    ring_id := (node_to_ring.lookup account).getD "N/A" }

/-- The ring summary built inside `perform_analysis`'s fraud-rings loop. -/
def analysisRing (node_list : List NodeRec) (cycle_info : RingRec) : FraudRing :=
  let ring_members := cycle_info.nodes
  let member_nodes := node_list.filter (fun n => decide (n.id ∈ ring_members))
  let ring_scores := member_nodes.map (·.suspicion_score)
  let avg_risk : Nat :=
    if ring_scores.length ≠ 0 then bankersRound (100 * ring_scores.sum) ring_scores.length else 0
  let patterns_in_ring := member_nodes.foldl (fun acc n => acc ++ n.patterns) []
  let pattern_type :=
    if "smurfing" ∈ patterns_in_ring ∧ "cycle" ∈ patterns_in_ring then "hybrid"
    else if "layering" ∈ patterns_in_ring then "layering"
    else "cycle"
  { ring_id := cycle_info.ring_id, member_accounts := ring_members,
    pattern_type := pattern_type, risk_score_x100 := avg_risk }

/-- Model of `perform_analysis(df)`: the whole pipeline. -/
def perform_analysis (parseOk : Bool) (txs : List Transaction) : AnalysisResult :=
  let G := build_graph txs
  let cd := detect_cycles G
  let node_list := G.nodes.map (analysisNode G cd.2 (detect_high_velocity parseOk G txs))
  let fraud_rings := cd.1.map (analysisRing node_list)
  let link_list := G.edges.map (fun e =>
    { source := e.src, target := e.tgt, amount := e.amount : LinkRec })
  let risk_summary := (node_list.filter (fun n => decide (n.suspicion_score > 20))).mergeSort
    (fun a b => decide (b.suspicion_score ≤ a.suspicion_score))
  { nodes := node_list, links := link_list, fraud_rings := fraud_rings,
    risk_summary := risk_summary,
    summary :=
      { total_accounts_analyzed := G.nodes.length,
        suspicious_accounts_flagged := (node_list.filter (fun n => decide (n.suspicion_score > 20))).length,
        fraud_rings_detected := fraud_rings.length } }

/-- Ordered (source, target) pairs of the stored edges. -/
def pairsOf (G : DiGraph) : List (String × String) := G.edges.map (fun e => (e.src, e.tgt))

/-- Invariants of every graph produced by `build_graph`: node list has no
duplicates, edge endpoints are nodes, and at most one edge is stored per
ordered pair (the `DiGraph` discipline). -/
structure WF (G : DiGraph) : Prop where
  nodes_nodup : G.nodes.Nodup
  src_mem : ∀ e ∈ G.edges, e.src ∈ G.nodes
  tgt_mem : ∀ e ∈ G.edges, e.tgt ∈ G.nodes
  pair_nodup : (pairsOf G).Nodup

/-- The last transaction of the batch for a given ordered account pair
(in input order); this is the one whose attributes the DiGraph keeps. -/
def lastTxFor (txs : List Transaction) (a b : String) : Option Transaction :=
  (txs.filter (fun t => decide (t.sender_id = a) && decide (t.receiver_id = b))).getLast?

/-- The edge relation of the digraph (one step). -/
def edgeRel (G : DiGraph) (u v : String) : Prop := hasEdgePair G u v = true

/-- Reachability along directed edges (reflexive-transitive closure). -/
def Reaches (G : DiGraph) : String → String → Prop := Relation.ReflTransGen (edgeRel G)

/-- Specification-side notion: two nodes lie in the same strongly
connected component when each reaches the other. -/
def InSameSCC (G : DiGraph) (u v : String) : Prop := Reaches G u v ∧ Reaches G v u

/-- A component for which the source emits a ring: either a non-trivial
SCC whose subgraph contains a cycle (`find_cycle` succeeds), or a
singleton with a self-loop. -/
def qualifiesRing (G : DiGraph) (C : List String) : Bool :=
  (decide (C.length > 1) && has_cycle (subgraphOf G C)) ||
    (match C with
     | [n] => hasEdgePair G n n
     | _ => false)

/-- The scoring formula exactly as §4.4 of the spec writes it (a second,
spec-side definition, to be compared with `calculate_suspicion_score`). -/
def specScore (is_in_ring : Bool) (in_degree : Nat) (is_high_velocity : Bool) : Nat :=
  min ((if is_in_ring then 50 else 0) +
    (if in_degree > 5 then min ((in_degree - 5) * 5) 30 else 0) +
    (if is_high_velocity then 20 else 0)) 100

/-- The per-account entry the orchestrator produces for a batch (a
convenient name for stating member-level properties). -/
def nodeFor (pk : Bool) (txs : List Transaction) (a : String) : NodeRec :=
  analysisNode (build_graph txs) (detect_cycles (build_graph txs)).2
    (detect_high_velocity pk (build_graph txs) txs) a

/-- A three-account cycle A → B → C → A, five minutes apart. -/
def txsCycle : List Transaction :=
  [⟨"t1", "A", "B", 5000, 0⟩, ⟨"t2", "B", "C", 5000, 5⟩, ⟨"t3", "C", "A", 5000, 10⟩]

/-- Six transfers from the single sender S to the single receiver M. -/
def txsRepeat6 : List Transaction :=
  [⟨"t1", "S", "M", 10, 0⟩, ⟨"t2", "S", "M", 10, 1⟩, ⟨"t3", "S", "M", 10, 2⟩,
   ⟨"t4", "S", "M", 10, 3⟩, ⟨"t5", "S", "M", 10, 4⟩, ⟨"t6", "S", "M", 10, 5⟩]

/-- Two transfers A → B with different amounts. -/
def txsPair : List Transaction :=
  [⟨"t1", "A", "B", 10, 0⟩, ⟨"t2", "A", "B", 20, 5⟩]

/-!
Verification of the graph-analytics pipeline in `src/backend/main.py`
(financial forensic engine: graph construction, ring detection via SCCs,
high-velocity detection, suspicion scoring, ring summarization).

Modelling conventions:
* Timestamps are abstract integers (a unit of minutes); the 15-minute
  velocity window is the constant 15.  Amounts are integers.
* `pandas.to_datetime` succeeding or failing for the whole batch is the
  boolean `parseOk` threaded into the velocity detector.
* The code builds a `networkx.DiGraph` (NOT a `MultiDiGraph`):
  `add_edge` on an existing ordered pair only overwrites the edge
  attributes.  `addEdge` mirrors exactly that.
* `networkx.strongly_connected_components` is modelled as grouping nodes
  by mutual reachability (the defining property of SCCs; component
  order is the first-representative order over the node list).
  `nx.find_cycle(subgraph)` succeeding is modelled as the decidable
  existence of a cycle in the subgraph (`has_cycle`).
* Python floats are abstracted to exact values.  `round(x, 2)` is
  round-half-to-even at two decimal places; the rounded average risk of
  a ring is stored exactly as an integer count of hundredths
  (`bankersRound`), proven equal to the rational-level rounding
  (`round2`, see `bankersRound_eq_round2`).
-/

example : (build_graph [⟨"t1", "A", "B", 10, 0⟩, ⟨"t2", "A", "B", 20, 5⟩]).edges.length = 1 := by decide

example : (build_graph [⟨"t1", "A", "B", 10, 0⟩, ⟨"t2", "B", "A", 20, 5⟩]).nodes = ["A", "B"] := by decide

example : ringId 7 = "RING_007" := by decide

example : (detect_cycles (build_graph [⟨"t1", "A", "B", 10, 0⟩, ⟨"t2", "B", "A", 20, 5⟩])).1 =
    [⟨"RING_001", ["A", "B"]⟩] := by decide

/-! ### Well-formedness of built graphs -/

theorem addNode_edges (G : DiGraph) (n : String) : (addNode G n).edges = G.edges := by
  unfold addNode; split <;> rfl

theorem mem_addNode {G : DiGraph} {n a : String} :
    a ∈ (addNode G n).nodes ↔ a ∈ G.nodes ∨ a = n := by
  unfold addNode
  split
  · next h => constructor
              · exact fun hm => Or.inl hm
              · rintro (hm | rfl) <;> [exact hm; exact h]
  · simp [List.mem_append]

theorem addNode_nodup {G : DiGraph} (h : G.nodes.Nodup) (n : String) :
    (addNode G n).nodes.Nodup := by
  unfold addNode
  split
  · exact h
  · next hne => simp [List.nodup_append, h, hne]

theorem hasEdgePair_iff {G : DiGraph} {u v : String} :
    hasEdgePair G u v = true ↔ (u, v) ∈ pairsOf G := by
  simp only [hasEdgePair, List.any_eq_true, Bool.and_eq_true, decide_eq_true_eq, pairsOf,
    List.mem_map]
  constructor
  · rintro ⟨e, he, h1, h2⟩; exact ⟨e, he, by simp [h1, h2]⟩
  · rintro ⟨e, he, h⟩
    rw [Prod.ext_iff] at h
    exact ⟨e, he, h.1, h.2⟩

theorem addEdge_nodes (G : DiGraph) (u v : String) (am ts : Int) (i : String) :
    (addEdge G u v am ts i).nodes = (addNode (addNode G u) v).nodes := by
  simp only [addEdge]
  split <;> rfl

theorem mem_addEdge_nodes {G : DiGraph} {u v a : String} {am ts : Int} {i : String} :
    a ∈ (addEdge G u v am ts i).nodes ↔ a ∈ G.nodes ∨ a = u ∨ a = v := by
  rw [addEdge_nodes, mem_addNode, mem_addNode]; tauto

theorem pairsOf_addEdge (G : DiGraph) (u v : String) (am ts : Int) (i : String) :
    pairsOf (addEdge G u v am ts i) =
      if hasEdgePair G u v then pairsOf G else pairsOf G ++ [(u, v)] := by
  have hep : hasEdgePair (addNode (addNode G u) v) u v = hasEdgePair G u v := by
    simp [hasEdgePair, addNode_edges]
  simp only [addEdge, hep, addNode_edges]
  split
  · next h =>
    simp only [h, if_true, pairsOf, List.map_map, addNode_edges]
    apply List.map_congr_left
    intro e _
    by_cases hc : e.src = u ∧ e.tgt = v
    · simp only [Function.comp_apply, if_pos hc]
    · simp [hc]
  · next h =>
    simp [h, pairsOf, addNode_edges]

theorem mem_pairsOf_addEdge {G : DiGraph} {u v a b : String} {am ts : Int} {i : String} :
    (a, b) ∈ pairsOf (addEdge G u v am ts i) ↔ (a, b) ∈ pairsOf G ∨ (a = u ∧ b = v) := by
  rw [pairsOf_addEdge]
  split
  · next h =>
    rw [hasEdgePair_iff] at h
    constructor
    · exact fun hm => Or.inl hm
    · rintro (hm | ⟨rfl, rfl⟩) <;> [exact hm; exact h]
  · simp [List.mem_append, Prod.ext_iff]

theorem wf_addEdge {G : DiGraph} (h : WF G) (u v : String) (am ts : Int) (i : String) :
    WF (addEdge G u v am ts i) := by
  refine ⟨?_, ?_, ?_, ?_⟩
  · rw [addEdge_nodes]
    exact addNode_nodup (addNode_nodup h.nodes_nodup u) v
  · intro e he
    have hp : (e.src, e.tgt) ∈ pairsOf (addEdge G u v am ts i) := List.mem_map_of_mem _ he
    rw [mem_pairsOf_addEdge] at hp
    rw [mem_addEdge_nodes]
    rcases hp with hm | ⟨hs, _⟩
    · rcases List.mem_map.1 hm with ⟨e', he', hpq⟩
      have hss : e'.src = e.src := congrArg Prod.fst hpq
      exact Or.inl (hss ▸ h.src_mem e' he')
    · exact Or.inr (Or.inl hs)
  · intro e he
    have hp : (e.src, e.tgt) ∈ pairsOf (addEdge G u v am ts i) := List.mem_map_of_mem _ he
    rw [mem_pairsOf_addEdge] at hp
    rw [mem_addEdge_nodes]
    rcases hp with hm | ⟨_, ht⟩
    · rcases List.mem_map.1 hm with ⟨e', he', hpq⟩
      have hts : e'.tgt = e.tgt := congrArg Prod.snd hpq
      exact Or.inl (hts ▸ h.tgt_mem e' he')
    · exact Or.inr (Or.inr ht)
  · rw [pairsOf_addEdge]
    split
    · exact h.pair_nodup
    · next hne =>
      have hnm : (u, v) ∉ pairsOf G := fun hm => hne (hasEdgePair_iff.2 hm)
      simp [List.nodup_append, h.pair_nodup, hnm]

theorem wf_build_graph (txs : List Transaction) : WF (build_graph txs) := by
  suffices h : ∀ G, WF G → WF (txs.foldl
      (fun G t => addEdge G t.sender_id t.receiver_id t.amount t.timestamp t.transaction_id) G) by
    exact h _ ⟨List.nodup_nil, by simp, by simp, List.nodup_nil⟩
  induction txs with
  | nil => exact fun G hG => hG
  | cons t ts ih => exact fun G hG => ih _ (wf_addEdge hG _ _ _ _ _)

/-! ### Characterization of `build_graph` in terms of the transactions -/

theorem build_graph_concat (txs : List Transaction) (t : Transaction) :
    build_graph (txs ++ [t]) =
      addEdge (build_graph txs) t.sender_id t.receiver_id t.amount t.timestamp t.transaction_id := by
  simp [build_graph, List.foldl_append]

theorem mem_pairsOf_build_graph {txs : List Transaction} {a b : String} :
    (a, b) ∈ pairsOf (build_graph txs) ↔ ∃ t ∈ txs, t.sender_id = a ∧ t.receiver_id = b := by
  induction txs using List.reverseRecOn with
  | nil => simp [build_graph, pairsOf]
  | append_singleton l t ih =>
    rw [build_graph_concat, mem_pairsOf_addEdge]
    simp only [List.mem_append, List.mem_singleton]
    constructor
    · rintro (hm | ⟨rfl, rfl⟩)
      · obtain ⟨t', ht', h⟩ := ih.1 hm
        exact ⟨t', Or.inl ht', h⟩
      · exact ⟨t, Or.inr rfl, rfl, rfl⟩
    · rintro ⟨t', ht' | rfl, hs, hr⟩
      · exact Or.inl (ih.2 ⟨t', ht', hs, hr⟩)
      · exact Or.inr ⟨hs.symm, hr.symm⟩

theorem hasEdgePair_build_graph {txs : List Transaction} {a b : String} :
    hasEdgePair (build_graph txs) a b = true ↔ ∃ t ∈ txs, t.sender_id = a ∧ t.receiver_id = b := by
  rw [hasEdgePair_iff, mem_pairsOf_build_graph]

theorem mem_build_graph_nodes {txs : List Transaction} {a : String} :
    a ∈ (build_graph txs).nodes ↔ ∃ t ∈ txs, t.sender_id = a ∨ t.receiver_id = a := by
  induction txs using List.reverseRecOn with
  | nil => simp [build_graph]
  | append_singleton l t ih =>
    rw [build_graph_concat, mem_addEdge_nodes, ih]
    simp only [List.mem_append, List.mem_singleton]
    constructor
    · rintro (⟨t', ht', h⟩ | h | h)
      exacts [⟨t', Or.inl ht', h⟩, ⟨t, Or.inr rfl, Or.inl h.symm⟩, ⟨t, Or.inr rfl, Or.inr h.symm⟩]
    · rintro ⟨t', ht' | rfl, h⟩
      · exact Or.inl ⟨t', ht', h⟩
      · rcases h with h | h
        exacts [Or.inr (Or.inl h.symm), Or.inr (Or.inr h.symm)]

theorem edge_data_eq_lastTx {txs : List Transaction} :
    ∀ e ∈ (build_graph txs).edges,
      ∃ t, lastTxFor txs e.src e.tgt = some t ∧ t.sender_id = e.src ∧ t.receiver_id = e.tgt ∧
        t.amount = e.amount ∧ t.timestamp = e.timestamp ∧ t.transaction_id = e.transaction_id := by
  induction txs using List.reverseRecOn with
  | nil => intro e he; simp [build_graph] at he
  | append_singleton l t ih =>
    intro e he
    rw [build_graph_concat] at he
    have hlast : ∀ a b : String, t.sender_id = a → t.receiver_id = b →
        lastTxFor (l ++ [t]) a b = some t := by
      intro a b hs hr
      unfold lastTxFor
      rw [List.filter_append]
      simp [hs, hr]
    have hkeep : ∀ a b : String, ¬(t.sender_id = a ∧ t.receiver_id = b) →
        lastTxFor (l ++ [t]) a b = lastTxFor l a b := by
      intro a b hne
      unfold lastTxFor
      rw [List.filter_append]
      have : (List.filter (fun x => decide (x.sender_id = a) && decide (x.receiver_id = b)) [t]) = [] := by
        simp only [List.filter, Bool.and_eq_true, decide_eq_true_eq]
        split
        · next hcond => exact absurd (by simpa using hcond) hne
        · rfl
      rw [this, List.append_nil]
    simp only [addEdge, addNode_edges] at he
    split at he
    · next hep =>
      simp only [List.mem_map] at he
      obtain ⟨e', he', rfl⟩ := he
      by_cases hc : e'.src = t.sender_id ∧ e'.tgt = t.receiver_id
      · rw [if_pos hc]
        exact ⟨t, hlast _ _ hc.1.symm hc.2.symm, hc.1.symm, hc.2.symm, rfl, rfl, rfl⟩
      · rw [if_neg hc]
        obtain ⟨t', h1, h2⟩ := ih e' he'
        refine ⟨t', ?_, h2⟩
        rw [hkeep _ _ (fun hcon => hc ⟨hcon.1.symm, hcon.2.symm⟩)]
        exact h1
    · next hep =>
      rcases List.mem_append.1 he with he' | he'
      · have hc : ¬(e.src = t.sender_id ∧ e.tgt = t.receiver_id) := by
          rintro ⟨h1, h2⟩
          apply hep
          simp only [hasEdgePair, addNode_edges] at *
          refine List.any_eq_true.2 ⟨e, he', ?_⟩
          simp [h1, h2]
        obtain ⟨t', h1, h2⟩ := ih e he'
        refine ⟨t', ?_, h2⟩
        rw [hkeep _ _ (fun hcon => hc ⟨hcon.1.symm, hcon.2.symm⟩)]
        exact h1
      · rcases List.mem_singleton.1 he' with rfl
        exact ⟨t, hlast _ _ rfl rfl, rfl, rfl, rfl, rfl, rfl⟩

/-! ### Correctness of the bounded reachability computation -/

theorem mem_successors {G : DiGraph} {u w : String} :
    w ∈ successors G u ↔ edgeRel G u w := by
  simp only [successors, List.mem_map, List.mem_filter, decide_eq_true_eq, edgeRel, hasEdgePair,
    List.any_eq_true, Bool.and_eq_true]
  constructor
  · rintro ⟨e, ⟨he, hs⟩, rfl⟩; exact ⟨e, he, by simp [hs]⟩
  · rintro ⟨e, he, hs, ht⟩
    exact ⟨e, ⟨he, by simpa using hs⟩, by simpa using ht⟩

theorem edgeRel_src_mem {G : DiGraph} (h : WF G) {u v : String} (he : edgeRel G u v) :
    u ∈ G.nodes := by
  obtain ⟨e, hm, hp⟩ := List.mem_map.1 (hasEdgePair_iff.1 he)
  have : e.src = u := congrArg Prod.fst hp
  exact this ▸ h.src_mem e hm

theorem edgeRel_tgt_mem {G : DiGraph} (h : WF G) {u v : String} (he : edgeRel G u v) :
    v ∈ G.nodes := by
  obtain ⟨e, hm, hp⟩ := List.mem_map.1 (hasEdgePair_iff.1 he)
  have : e.tgt = v := congrArg Prod.snd hp
  exact this ▸ h.tgt_mem e hm

theorem mem_foldl_insertNew {l acc : List String} {x : String} :
    x ∈ l.foldl insertNew acc ↔ x ∈ acc ∨ x ∈ l := by
  induction l generalizing acc with
  | nil => simp
  | cons v l ih =>
    simp only [List.foldl_cons, ih, insertNew]
    split
    · next h =>
      constructor
      · rintro (hm | hm) <;> simp [hm]
      · rintro (hm | hm)
        · exact Or.inl hm
        · rcases List.mem_cons.1 hm with rfl | hm
          exacts [Or.inl h, Or.inr hm]
    · simp only [List.mem_append, List.mem_singleton, List.mem_cons]
      tauto

theorem foldl_insertNew_append (l acc : List String) :
    ∃ t, l.foldl insertNew acc = acc ++ t := by
  induction l generalizing acc with
  | nil => exact ⟨[], (List.append_nil acc).symm⟩
  | cons v l ih =>
    simp only [List.foldl_cons, insertNew]
    split
    · exact ih acc
    · obtain ⟨t, ht⟩ := ih (acc ++ [v])
      exact ⟨[v] ++ t, by simp [ht]⟩

theorem foldl_insertNew_nodup {l acc : List String} (h : acc.Nodup) :
    (l.foldl insertNew acc).Nodup := by
  induction l generalizing acc with
  | nil => exact h
  | cons v l ih =>
    simp only [List.foldl_cons, insertNew]
    split
    · exact ih h
    · next hn => exact ih (by simp [List.nodup_append, h, hn])

theorem mem_reachStep {G : DiGraph} {S : List String} {x : String} :
    x ∈ reachStep G S ↔ x ∈ S ∨ ∃ u ∈ S, edgeRel G u x := by
  have key : ∀ (l acc : List String),
      x ∈ l.foldl (fun acc u => (successors G u).foldl insertNew acc) acc ↔
        x ∈ acc ∨ ∃ u ∈ l, edgeRel G u x := by
    intro l
    induction l with
    | nil => simp
    | cons v l ih =>
      intro acc
      simp only [List.foldl_cons, ih, mem_foldl_insertNew, mem_successors, List.mem_cons]
      constructor
      · rintro ((hm | hm) | ⟨u, hu, he⟩)
        exacts [Or.inl hm, Or.inr ⟨v, Or.inl rfl, hm⟩, Or.inr ⟨u, Or.inr hu, he⟩]
      · rintro (hm | ⟨u, rfl | hu, he⟩)
        exacts [Or.inl (Or.inl hm), Or.inl (Or.inr he), Or.inr ⟨u, hu, he⟩]
  exact key S S

theorem reachStep_append (G : DiGraph) (S : List String) :
    ∃ t, reachStep G S = S ++ t := by
  have key : ∀ (l acc : List String), ∃ t,
      l.foldl (fun acc u => (successors G u).foldl insertNew acc) acc = acc ++ t := by
    intro l
    induction l with
    | nil => exact fun acc => ⟨[], (List.append_nil acc).symm⟩
    | cons v l ih =>
      intro acc
      simp only [List.foldl_cons]
      obtain ⟨t1, ht1⟩ := foldl_insertNew_append (successors G v) acc
      obtain ⟨t2, ht2⟩ := ih ((successors G v).foldl insertNew acc)
      exact ⟨t1 ++ t2, by rw [ht2, ht1, List.append_assoc]⟩
  exact key S S

theorem reachStep_nodup {G : DiGraph} {S : List String} (h : S.Nodup) :
    (reachStep G S).Nodup := by
  have key : ∀ (l acc : List String), acc.Nodup →
      (l.foldl (fun acc u => (successors G u).foldl insertNew acc) acc).Nodup := by
    intro l
    induction l with
    | nil => exact fun _ h => h
    | cons v l ih => exact fun acc hacc => ih _ (foldl_insertNew_nodup hacc)
  exact key S S h

theorem subset_reachStep (G : DiGraph) (S : List String) : S ⊆ reachStep G S := by
  obtain ⟨t, ht⟩ := reachStep_append G S
  rw [ht]
  exact List.subset_append_left S t

theorem reachStep_subset_nodes {G : DiGraph} (hwf : WF G) {S : List String}
    (h : ∀ x ∈ S, x ∈ G.nodes) : ∀ x ∈ reachStep G S, x ∈ G.nodes := by
  intro x hx
  rcases mem_reachStep.1 hx with hm | ⟨u, _, he⟩
  · exact h x hm
  · exact edgeRel_tgt_mem hwf he

theorem reachStep_fix_iterate {G : DiGraph} {S : List String} (h : reachStep G S = S) :
    ∀ k, (reachStep G)^[k] S = S := by
  intro k
  induction k with
  | zero => rfl
  | succ k ih => rw [Function.iterate_succ_apply', ih, h]

theorem iterate_reachStep_stabilize (G : DiGraph) (S : List String) :
    ∀ k, S.length + k ≤ ((reachStep G)^[k] S).length ∨
      reachStep G ((reachStep G)^[k] S) = (reachStep G)^[k] S := by
  intro k
  induction k with
  | zero => exact Or.inl (by simp)
  | succ k ih =>
    rcases ih with hlen | hfix
    · obtain ⟨t, ht⟩ := reachStep_append G ((reachStep G)^[k] S)
      rcases t with _ | ⟨x, t⟩
      · right
        rw [Function.iterate_succ_apply', ht, List.append_nil, ht, List.append_nil]
      · left
        rw [Function.iterate_succ_apply', ht]
        simp only [List.length_append, List.length_cons]
        omega
    · right
      rw [Function.iterate_succ_apply', hfix, hfix]

theorem iterate_reachStep_subset_nodes {G : DiGraph} (hwf : WF G) {S : List String}
    (h : ∀ x ∈ S, x ∈ G.nodes) (k : Nat) : ∀ x ∈ (reachStep G)^[k] S, x ∈ G.nodes := by
  induction k with
  | zero => exact h
  | succ k ih =>
    rw [Function.iterate_succ_apply']
    exact reachStep_subset_nodes hwf ih

theorem iterate_reachStep_nodup {G : DiGraph} {S : List String} (h : S.Nodup) (k : Nat) :
    ((reachStep G)^[k] S).Nodup := by
  induction k with
  | zero => exact h
  | succ k ih =>
    rw [Function.iterate_succ_apply']
    exact reachStep_nodup ih

/-- After `G.nodes.length` rounds the reachable set is closed under one
more expansion. -/
theorem reachSet_fix {G : DiGraph} (hwf : WF G) {u : String} (hu : u ∈ G.nodes) :
    reachStep G (reachSet G u) = reachSet G u := by
  rcases iterate_reachStep_stabilize G [u] G.nodes.length with hlen | hfix
  · exfalso
    have hsub : ∀ x ∈ (reachStep G)^[G.nodes.length] [u], x ∈ G.nodes :=
      iterate_reachStep_subset_nodes hwf (by simpa using hu) G.nodes.length
    have hnd : ((reachStep G)^[G.nodes.length] [u]).Nodup :=
      iterate_reachStep_nodup (List.nodup_singleton u) G.nodes.length
    have hcard : ((reachStep G)^[G.nodes.length] [u]).length ≤ G.nodes.length := by
      have h1 : ((reachStep G)^[G.nodes.length] [u]).toFinset.card =
          ((reachStep G)^[G.nodes.length] [u]).length := List.toFinset_card_of_nodup hnd
      have h2 : ((reachStep G)^[G.nodes.length] [u]).toFinset ⊆ G.nodes.toFinset := by
        intro x hx
        exact List.mem_toFinset.2 (hsub x (List.mem_toFinset.1 hx))
      calc ((reachStep G)^[G.nodes.length] [u]).length
          = ((reachStep G)^[G.nodes.length] [u]).toFinset.card := h1.symm
        _ ≤ G.nodes.toFinset.card := Finset.card_le_card h2
        _ ≤ G.nodes.length := List.toFinset_card_le G.nodes
    simp only [List.length_singleton] at hlen
    omega
  · exact hfix

theorem mem_reachSet_self (G : DiGraph) (u : String) : u ∈ reachSet G u := by
  unfold reachSet
  induction G.nodes.length with
  | zero => exact List.mem_singleton_self u
  | succ k ih =>
    rw [Function.iterate_succ_apply']
    exact subset_reachStep G _ ih

theorem reachSet_sound {G : DiGraph} {u v : String} (h : v ∈ reachSet G u) :
    Reaches G u v := by
  unfold reachSet at h
  suffices key : ∀ k (S : List String), (∀ x ∈ S, Reaches G u x) →
      ∀ x ∈ (reachStep G)^[k] S, Reaches G u x by
    refine key G.nodes.length [u] ?_ v h
    intro x hx
    rw [List.mem_singleton] at hx
    exact hx ▸ Relation.ReflTransGen.refl
  intro k
  induction k with
  | zero => exact fun S h => h
  | succ k ih =>
    intro S hS x hx
    rw [Function.iterate_succ_apply'] at hx
    rcases mem_reachStep.1 hx with hm | ⟨w, hw, he⟩
    · exact ih S hS x hm
    · exact (ih S hS w hw).tail he

theorem reachSet_complete {G : DiGraph} (hwf : WF G) {u v : String} (hu : u ∈ G.nodes)
    (h : Reaches G u v) : v ∈ reachSet G u := by
  induction h with
  | refl => exact mem_reachSet_self G u
  | tail _ he ih =>
    have := mem_reachStep.2 (Or.inr ⟨_, ih, he⟩)
    rwa [reachSet_fix hwf hu] at this

theorem reachb_iff {G : DiGraph} (hwf : WF G) {u v : String} (hu : u ∈ G.nodes) :
    reachb G u v = true ↔ Reaches G u v := by
  rw [reachb, decide_eq_true_eq]
  exact ⟨reachSet_sound, reachSet_complete hwf hu⟩

/-! ### Strongly connected components -/

theorem InSameSCC.refl (G : DiGraph) (u : String) : InSameSCC G u u :=
  ⟨Relation.ReflTransGen.refl, Relation.ReflTransGen.refl⟩

theorem InSameSCC.symm {G : DiGraph} {u v : String} (h : InSameSCC G u v) : InSameSCC G v u :=
  ⟨h.2, h.1⟩

theorem InSameSCC.trans {G : DiGraph} {u v w : String} (h1 : InSameSCC G u v)
    (h2 : InSameSCC G v w) : InSameSCC G u w :=
  ⟨h1.1.trans h2.1, h2.2.trans h1.2⟩

theorem mem_sccOf_iff {G : DiGraph} (hwf : WF G) {u : String} (hu : u ∈ G.nodes) {v : String} :
    v ∈ sccOf G u ↔ v ∈ G.nodes ∧ InSameSCC G u v := by
  unfold sccOf
  rw [List.mem_filter]
  constructor
  · rintro ⟨hv, hb⟩
    rw [Bool.and_eq_true] at hb
    exact ⟨hv, (reachb_iff hwf hu).1 hb.1, (reachb_iff hwf hv).1 hb.2⟩
  · rintro ⟨hv, h1, h2⟩
    exact ⟨hv, by rw [Bool.and_eq_true, reachb_iff hwf hu, reachb_iff hwf hv]; exact ⟨h1, h2⟩⟩

theorem mem_sccOf_self {G : DiGraph} (hwf : WF G) {u : String} (hu : u ∈ G.nodes) :
    u ∈ sccOf G u :=
  (mem_sccOf_iff hwf hu).2 ⟨hu, InSameSCC.refl G u⟩

theorem sccOf_eq_of_mem {G : DiGraph} (hwf : WF G) {u v : String} (hu : u ∈ G.nodes)
    (hv : v ∈ sccOf G u) : sccOf G v = sccOf G u := by
  obtain ⟨hvn, hscc⟩ := (mem_sccOf_iff hwf hu).1 hv
  apply List.filter_congr
  intro x hx
  have : (x ∈ sccOf G v) ↔ (x ∈ sccOf G u) := by
    rw [mem_sccOf_iff hwf hvn, mem_sccOf_iff hwf hu]
    exact ⟨fun ⟨hxm, h⟩ => ⟨hxm, hscc.trans h⟩, fun ⟨hxm, h⟩ => ⟨hxm, hscc.symm.trans h⟩⟩
  unfold sccOf at this
  rw [List.mem_filter, List.mem_filter] at this
  rcases hb1 : (reachb G v x && reachb G x v) with _ | _ <;>
    rcases hb2 : (reachb G u x && reachb G x u) with _ | _ <;> simp_all

theorem sccOf_nodup {G : DiGraph} (hwf : WF G) (u : String) : (sccOf G u).Nodup :=
  hwf.nodes_nodup.filter _

theorem sccOf_subset_nodes {G : DiGraph} {u : String} : sccOf G u ⊆ G.nodes :=
  fun _ hx => (List.mem_filter.1 hx).1

/-- Generic shape of the component-collecting fold. -/
theorem scc_foldl_append (G : DiGraph) (l : List String) (acc : List (List String)) :
    ∃ t, l.foldl (fun acc u => if acc.any (fun c => decide (u ∈ c)) then acc
      else acc ++ [sccOf G u]) acc = acc ++ t := by
  induction l generalizing acc with
  | nil => exact ⟨[], (List.append_nil acc).symm⟩
  | cons v l ih =>
    simp only [List.foldl_cons]
    split
    · exact ih acc
    · obtain ⟨t, ht⟩ := ih (acc ++ [sccOf G v])
      exact ⟨[sccOf G v] ++ t, by rw [ht, List.append_assoc]⟩

theorem comps_are_sccs {G : DiGraph} {C : List String} :
    C ∈ strongly_connected_components G → ∃ u ∈ G.nodes, C = sccOf G u := by
  unfold strongly_connected_components
  suffices key : ∀ (l : List String) (acc : List (List String)), (∀ x ∈ l, x ∈ G.nodes) →
      (∀ C ∈ acc, ∃ u ∈ G.nodes, C = sccOf G u) →
      C ∈ l.foldl (fun acc u => if acc.any (fun c => decide (u ∈ c)) then acc
        else acc ++ [sccOf G u]) acc → ∃ u ∈ G.nodes, C = sccOf G u by
    exact key G.nodes [] (fun x h => h) (by simp)
  intro l
  induction l with
  | nil => exact fun acc _ hacc h => hacc C h
  | cons v l ih =>
    intro acc hl hacc h
    simp only [List.foldl_cons] at h
    split at h
    · exact ih acc (fun x hx => hl x (List.mem_cons_of_mem v hx)) hacc h
    · refine ih _ (fun x hx => hl x (List.mem_cons_of_mem v hx)) ?_ h
      intro C' hC'
      rcases List.mem_append.1 hC' with hm | hm
      · exact hacc C' hm
      · rw [List.mem_singleton] at hm
        exact ⟨v, hl v (List.mem_cons_self v l), hm⟩

theorem comps_cover {G : DiGraph} (hwf : WF G) {u : String} (hu : u ∈ G.nodes) :
    ∃ C ∈ strongly_connected_components G, u ∈ C := by
  unfold strongly_connected_components
  suffices key : ∀ (l : List String) (acc : List (List String)), (∀ x ∈ l, x ∈ G.nodes) →
      ((∃ C ∈ acc, u ∈ C) ∨ u ∈ l) →
      ∃ C ∈ l.foldl (fun acc u => if acc.any (fun c => decide (u ∈ c)) then acc
        else acc ++ [sccOf G u]) acc, u ∈ C by
    exact key G.nodes [] (fun x h => h) (Or.inr hu)
  intro l
  induction l with
  | nil =>
    intro acc _ h
    rcases h with h | h
    · exact h
    · exact absurd h (List.not_mem_nil u)
  | cons v l ih =>
    intro acc hl h
    simp only [List.foldl_cons]
    have hpersist : ∀ (acc' : List (List String)), (∃ C ∈ acc', u ∈ C) →
        ∃ C ∈ l.foldl (fun acc u => if acc.any (fun c => decide (u ∈ c)) then acc
          else acc ++ [sccOf G u]) acc', u ∈ C := by
      intro acc' ⟨C, hC, huC⟩
      obtain ⟨t, ht⟩ := scc_foldl_append G l acc'
      exact ⟨C, by rw [ht]; exact List.mem_append_left t hC, huC⟩
    split
    · next hany =>
      rcases h with hX | hX
      · exact ih acc (fun x hx => hl x (List.mem_cons_of_mem v hx)) (Or.inl hX)
      · rcases List.mem_cons.1 hX with rfl | hX
        · obtain ⟨C, hC, hvC⟩ := List.any_eq_true.1 hany
          exact hpersist acc ⟨C, hC, by simpa using hvC⟩
        · exact ih acc (fun x hx => hl x (List.mem_cons_of_mem v hx)) (Or.inr hX)
    · rcases h with hX | hX
      · rcases hX with ⟨C, hC, huC⟩
        exact hpersist _ ⟨C, List.mem_append_left _ hC, huC⟩
      · rcases List.mem_cons.1 hX with rfl | hX
        · exact hpersist _ ⟨sccOf G u, List.mem_append_right _ (List.mem_singleton_self _),
            mem_sccOf_self hwf (hl u (List.mem_cons_self u l))⟩
        · exact ih _ (fun x hx => hl x (List.mem_cons_of_mem v hx)) (Or.inr hX)

theorem comps_pairwise_disjoint {G : DiGraph} (hwf : WF G) :
    (strongly_connected_components G).Pairwise (fun C1 C2 => ∀ x, x ∈ C1 → x ∉ C2) := by
  unfold strongly_connected_components
  suffices key : ∀ (l : List String) (acc : List (List String)), (∀ x ∈ l, x ∈ G.nodes) →
      (∀ C ∈ acc, ∃ u ∈ G.nodes, C = sccOf G u) →
      acc.Pairwise (fun C1 C2 => ∀ x, x ∈ C1 → x ∉ C2) →
      (l.foldl (fun acc u => if acc.any (fun c => decide (u ∈ c)) then acc
        else acc ++ [sccOf G u]) acc).Pairwise (fun C1 C2 => ∀ x, x ∈ C1 → x ∉ C2) by
    exact key G.nodes [] (fun x h => h) (by simp) List.Pairwise.nil
  intro l
  induction l with
  | nil => exact fun acc _ _ hp => hp
  | cons v l ih =>
    intro acc hl hacc hp
    simp only [List.foldl_cons]
    split
    · exact ih acc (fun x hx => hl x (List.mem_cons_of_mem v hx)) hacc hp
    · next hguard =>
      have hvn : v ∈ G.nodes := hl v (List.mem_cons_self v l)
      have hnot : ∀ C ∈ acc, v ∉ C := by
        intro C hC hvC
        exact hguard (List.any_eq_true.2 ⟨C, hC, by simpa using hvC⟩)
      refine ih _ (fun x hx => hl x (List.mem_cons_of_mem v hx)) ?_ ?_
      · intro C' hC'
        rcases List.mem_append.1 hC' with hm | hm
        · exact hacc C' hm
        · rw [List.mem_singleton] at hm
          exact ⟨v, hvn, hm⟩
      · rw [List.pairwise_append]
        refine ⟨hp, List.pairwise_singleton _ _, ?_⟩
        intro C hC C' hC' x hxC
        rw [List.mem_singleton] at hC'
        subst hC'
        intro hxv
        obtain ⟨w, hwn, rfl⟩ := hacc C hC
        have h1 : sccOf G x = sccOf G w := sccOf_eq_of_mem hwf hwn hxC
        have h2 : sccOf G x = sccOf G v :=
          sccOf_eq_of_mem hwf hvn hxv
        have : v ∈ sccOf G w := by
          rw [← h1, h2]
          exact mem_sccOf_self hwf hvn
        exact hnot _ hC this

theorem comp_eq_sccOf_mem {G : DiGraph} (hwf : WF G) {C : List String}
    (hC : C ∈ strongly_connected_components G) {v : String} (hv : v ∈ C) :
    C = sccOf G v := by
  obtain ⟨u, hu, rfl⟩ := comps_are_sccs hC
  exact (sccOf_eq_of_mem hwf hu hv).symm

/-! ### The subgraph of an SCC contains a cycle when the SCC is non-trivial -/

theorem mem_subgraph_nodes {G : DiGraph} {C : List String} {x : String} :
    x ∈ (subgraphOf G C).nodes ↔ x ∈ G.nodes ∧ x ∈ C := by
  simp [subgraphOf, List.mem_filter]

theorem edgeRel_subgraph_iff {G : DiGraph} {C : List String} {a b : String} :
    edgeRel (subgraphOf G C) a b ↔ edgeRel G a b ∧ a ∈ C ∧ b ∈ C := by
  simp only [edgeRel, hasEdgePair, subgraphOf, List.any_eq_true, List.mem_filter,
    Bool.and_eq_true, decide_eq_true_eq]
  constructor
  · rintro ⟨e, ⟨he, hsC, htC⟩, hs, ht⟩
    exact ⟨⟨e, he, hs, ht⟩, hs ▸ hsC, ht ▸ htC⟩
  · rintro ⟨⟨e, he, hs, ht⟩, haC, hbC⟩
    exact ⟨e, ⟨he, hs ▸ haC, ht ▸ hbC⟩, hs, ht⟩

theorem wf_subgraph {G : DiGraph} (hwf : WF G) (C : List String) : WF (subgraphOf G C) := by
  refine ⟨hwf.nodes_nodup.filter _, ?_, ?_, ?_⟩
  · intro e he
    rw [subgraphOf, List.mem_filter, Bool.and_eq_true, decide_eq_true_eq, decide_eq_true_eq] at he
    rw [mem_subgraph_nodes]
    exact ⟨hwf.src_mem e he.1, he.2.1⟩
  · intro e he
    rw [subgraphOf, List.mem_filter, Bool.and_eq_true, decide_eq_true_eq, decide_eq_true_eq] at he
    rw [mem_subgraph_nodes]
    exact ⟨hwf.tgt_mem e he.1, he.2.2⟩
  · have hsub : (subgraphOf G C).edges.Sublist G.edges := List.filter_sublist G.edges
    exact hwf.pair_nodup.sublist (hsub.map _)

/-- A path between two members of the SCC of `u` can be replayed inside
the subgraph induced by that SCC. -/
theorem reaches_in_scc {G : DiGraph} (hwf : WF G) {u : String} (hu : u ∈ G.nodes)
    {a b : String} (hab : Reaches G a b) (hub : InSameSCC G u b) :
    InSameSCC G u a → Reaches (subgraphOf G (sccOf G u)) a b := by
  induction hab using Relation.ReflTransGen.head_induction_on with
  | refl => exact fun _ => Relation.ReflTransGen.refl
  | @head a c hstep hrest ih =>
    intro hua
    have huc : InSameSCC G u c :=
      ⟨hua.1.trans (Relation.ReflTransGen.single hstep), hrest.trans hub.2⟩
    have han : a ∈ G.nodes := edgeRel_src_mem hwf hstep
    have hcn : c ∈ G.nodes := edgeRel_tgt_mem hwf hstep
    have hedge : edgeRel (subgraphOf G (sccOf G u)) a c :=
      edgeRel_subgraph_iff.2 ⟨hstep, (mem_sccOf_iff hwf hu).2 ⟨han, hua⟩,
        (mem_sccOf_iff hwf hu).2 ⟨hcn, huc⟩⟩
    exact Relation.ReflTransGen.head hedge (ih huc)

/-- A strongly connected component with at least two nodes always
contains a directed cycle within its induced subgraph. -/
theorem has_cycle_of_nontrivial_scc {G : DiGraph} (hwf : WF G) {u v : String}
    (hu : u ∈ G.nodes) (hv : v ∈ sccOf G u) (hne : v ≠ u) :
    has_cycle (subgraphOf G (sccOf G u)) = true := by
  obtain ⟨hvn, huv, hvu⟩ : v ∈ G.nodes ∧ Reaches G u v ∧ Reaches G v u := by
    have h := (mem_sccOf_iff hwf hu).1 hv
    exact ⟨h.1, h.2.1, h.2.2⟩
  rcases huv.cases_head with heq | ⟨w, hstep, hrest⟩
  · exact absurd heq.symm hne
  · have hwn : w ∈ G.nodes := edgeRel_tgt_mem hwf hstep
    have huw : InSameSCC G u w :=
      ⟨Relation.ReflTransGen.single hstep, hrest.trans hvu⟩
    have hedge : edgeRel (subgraphOf G (sccOf G u)) u w :=
      edgeRel_subgraph_iff.2 ⟨hstep, mem_sccOf_self hwf hu,
        (mem_sccOf_iff hwf hu).2 ⟨hwn, huw⟩⟩
    have hreach : Reaches (subgraphOf G (sccOf G u)) w u :=
      reaches_in_scc hwf hu huw.2 (InSameSCC.refl G u) huw
    have hwH : w ∈ (subgraphOf G (sccOf G u)).nodes :=
      mem_subgraph_nodes.2 ⟨hwn, (mem_sccOf_iff hwf hu).2 ⟨hwn, huw⟩⟩
    have huH : u ∈ (subgraphOf G (sccOf G u)).nodes :=
      mem_subgraph_nodes.2 ⟨hu, mem_sccOf_self hwf hu⟩
    refine List.any_eq_true.2 ⟨u, huH, List.any_eq_true.2 ⟨w, mem_successors.2 hedge, ?_⟩⟩
    exact (reachb_iff (wf_subgraph hwf _) hwH).2 hreach

/-! ### Injectivity of the ring-id format on positive counters -/

theorem decDigitsAux_eq_digits (fuel n : Nat) (h : n ≤ fuel) :
    decDigitsAux fuel n = Nat.digits 10 n := by
  induction fuel generalizing n with
  | zero =>
    have : n = 0 := Nat.le_zero.1 h
    subst this
    simp [decDigitsAux]
  | succ f ih =>
    match n with
    | 0 => simp [decDigitsAux]
    | m + 1 =>
      rw [decDigitsAux]
      have hdiv : (m + 1) / 10 ≤ f := by
        have := Nat.div_lt_self (Nat.succ_pos m) (show 1 < 10 by norm_num)
        omega
      rw [ih _ hdiv]
      exact (Nat.digits_def' (by norm_num) (Nat.succ_pos m)).symm

theorem digitChar_inj {d e : Nat} (hd : d < 10) (he : e < 10) (h : digitChar d = digitChar e) :
    d = e := by
  interval_cases d <;> interval_cases e <;> first | rfl | exact absurd h (by decide)

theorem map_digitChar_inj {l1 l2 : List Nat} (h1 : ∀ x ∈ l1, x < 10) (h2 : ∀ x ∈ l2, x < 10)
    (h : l1.map digitChar = l2.map digitChar) : l1 = l2 := by
  induction l1 generalizing l2 with
  | nil => cases l2 <;> simp_all
  | cons a t ih =>
    cases l2 with
    | nil => simp at h
    | cons b t2 =>
      simp only [List.map_cons, List.cons.injEq] at h
      have ha : a = b := digitChar_inj (h1 a (List.mem_cons_self a t)) (h2 b (List.mem_cons_self b t2)) h.1
      rw [ha, ih (fun x hx => h1 x (List.mem_cons_of_mem a hx))
        (fun x hx => h2 x (List.mem_cons_of_mem b hx)) h.2]

theorem decRepr_head_ne_zero {n : Nat} (hn : n ≠ 0) {c : Char}
    (hc : (decRepr n).head? = some c) : c ≠ '0' := by
  unfold decRepr at hc
  rw [decDigitsAux_eq_digits n n le_rfl] at hc
  rw [List.head?_reverse, List.getLast?_map] at hc
  have hne : Nat.digits 10 n ≠ [] := Nat.digits_ne_nil_iff_ne_zero.2 hn
  rw [List.getLast?_eq_getLast _ hne] at hc
  simp only [Option.map_some', Option.some.injEq] at hc
  intro hc0
  have hlast := Nat.getLast_digit_ne_zero 10 hn
  apply hlast
  have hlt : (Nat.digits 10 n).getLast hne < 10 :=
    Nat.digits_lt_base (by norm_num) (List.getLast_mem hne)
  have : digitChar ((Nat.digits 10 n).getLast hne) = digitChar 0 := by
    rw [hc]; rw [hc0]; rfl
  exact digitChar_inj hlt (by norm_num) this

theorem dropWhile_replicate_zero (k : Nat) (l : List Char) :
    List.dropWhile (fun c => decide (c = '0')) (List.replicate k '0' ++ l) =
      List.dropWhile (fun c => decide (c = '0')) l := by
  induction k with
  | zero => rfl
  | succ k ih => simp [List.replicate_succ, List.dropWhile_cons, ih]

theorem decRepr_eq_of_pad {m n : Nat} (hm : m ≠ 0) (hn : n ≠ 0)
    (h : List.replicate (3 - (decRepr m).length) '0' ++ decRepr m =
      List.replicate (3 - (decRepr n).length) '0' ++ decRepr n) : decRepr m = decRepr n := by
  have key : ∀ p : Nat, p ≠ 0 →
      List.dropWhile (fun c => decide (c = '0'))
        (List.replicate (3 - (decRepr p).length) '0' ++ decRepr p) = decRepr p := by
    intro p hp
    rw [dropWhile_replicate_zero]
    cases hd : decRepr p with
    | nil => rfl
    | cons c t =>
      have : c ≠ '0' := decRepr_head_ne_zero hp (by rw [hd]; rfl)
      simp [List.dropWhile_cons, this]
  have h1 := key m hm
  have h2 := key n hn
  rw [← h1, ← h2, h]

theorem ringId_inj {m n : Nat} (hm : m ≠ 0) (hn : n ≠ 0) (h : ringId m = ringId n) : m = n := by
  unfold ringId at h
  have hlist : "RING_".toList ++ (List.replicate (3 - (decRepr m).length) '0' ++ decRepr m) =
      "RING_".toList ++ (List.replicate (3 - (decRepr n).length) '0' ++ decRepr n) := by
    have := congrArg String.data h
    simpa [List.append_assoc] using this
  have hpad := List.append_cancel_left hlist
  have hds : decRepr m = decRepr n := decRepr_eq_of_pad hm hn hpad
  unfold decRepr at hds
  rw [decDigitsAux_eq_digits m m le_rfl, decDigitsAux_eq_digits n n le_rfl] at hds
  have hrev := congrArg List.reverse hds
  simp only [List.reverse_reverse] at hrev
  have hdig : Nat.digits 10 m = Nat.digits 10 n :=
    map_digitChar_inj (fun x hx => Nat.digits_lt_base (by norm_num) hx)
      (fun x hx => Nat.digits_lt_base (by norm_num) hx) hrev
  exact Nat.digits.injective 10 hdig

/-! ### Association-list facts for the node-to-ring mapping -/

theorem lookup_append_some {l1 l2 : List (String × String)} {a v : String}
    (h : l1.lookup a = some v) : (l1 ++ l2).lookup a = some v := by
  induction l1 with
  | nil => simp [List.lookup] at h
  | cons p t ih =>
    rw [List.cons_append, List.lookup] at *
    rcases hb : (a == p.1) with _ | _ <;> rw [hb] at h
    · exact ih h
    · exact h

theorem lookup_append_none {l1 l2 : List (String × String)} {a : String}
    (h : l1.lookup a = none) : (l1 ++ l2).lookup a = l2.lookup a := by
  induction l1 with
  | nil => rfl
  | cons p t ih =>
    rw [List.cons_append, List.lookup] at *
    rcases hb : (a == p.1) with _ | _ <;> rw [hb] at h
    · exact ih h
    · exact absurd h (by simp)

theorem lookup_map_self {C : List String} {rid a : String} (h : a ∈ C) :
    (C.map (fun n => (n, rid))).lookup a = some rid := by
  induction C with
  | nil => exact absurd h (List.not_mem_nil a)
  | cons c t ih =>
    rw [List.map_cons, List.lookup]
    rcases hb : (a == c) with _ | _
    · rcases List.mem_cons.1 h with rfl | hm
      · simp at hb
      · exact ih hm
    · rfl

theorem mem_of_lookup_isSome {l : List (String × String)} {a : String}
    (h : (l.lookup a).isSome = true) : ∃ p ∈ l, p.1 = a := by
  induction l with
  | nil => simp [List.lookup] at h
  | cons p t ih =>
    rw [List.lookup] at h
    rcases hb : (a == p.1) with _ | _ <;> rw [hb] at h
    · obtain ⟨q, hq, hqa⟩ := ih h
      exact ⟨q, List.mem_cons_of_mem p hq, hqa⟩
    · exact ⟨p, List.mem_cons_self p t, by simp at hb; exact hb.symm⟩

theorem lookup_isSome_of_mem {l : List (String × String)} {p : String × String}
    (h : p ∈ l) : (l.lookup p.1).isSome = true := by
  induction l with
  | nil => exact absurd h (List.not_mem_nil p)
  | cons q t ih =>
    rw [List.lookup]
    rcases hb : (p.1 == q.1) with _ | _
    · rcases List.mem_cons.1 h with rfl | hm
      · simp at hb
      · exact ih hm
    · rfl

/-! ### Invariants of the `detect_cycles` fold -/

theorem detectStep_big {G : DiGraph} {C : List String}
    (h1 : C.length > 1) (h2 : has_cycle (subgraphOf G C) = true)
    (s : List RingRec × List (String × String) × Nat) :
    detectStep G s C = (s.1 ++ [⟨ringId s.2.2, C⟩],
      s.2.1 ++ C.map (fun n => (n, ringId s.2.2)), s.2.2 + 1) := by
  unfold detectStep
  rw [if_pos h1, if_pos h2]

theorem detectStep_big_nocycle {G : DiGraph} {C : List String}
    (h1 : C.length > 1) (h2 : ¬has_cycle (subgraphOf G C) = true)
    (s : List RingRec × List (String × String) × Nat) :
    detectStep G s C = (s.1, s.2.1, s.2.2 + 1) := by
  unfold detectStep
  rw [if_pos h1, if_neg h2]

theorem detectStep_selfloop {G : DiGraph} {n : String} (h : hasEdgePair G n n = true)
    (s : List RingRec × List (String × String) × Nat) :
    detectStep G s [n] = (s.1 ++ [⟨ringId s.2.2, [n]⟩],
      s.2.1 ++ [(n, ringId s.2.2)], s.2.2 + 1) := by
  unfold detectStep
  rw [if_neg (by simp)]
  simp only [h, if_true]

theorem detectStep_noloop {G : DiGraph} {n : String} (h : hasEdgePair G n n = false)
    (s : List RingRec × List (String × String) × Nat) :
    detectStep G s [n] = s := by
  unfold detectStep
  rw [if_neg (by simp)]
  simp only [h]
  rfl

theorem detectStep_nil (G : DiGraph) (s : List RingRec × List (String × String) × Nat) :
    detectStep G s [] = s := by
  unfold detectStep
  rfl

theorem detect_fold_cycles_shape (G : DiGraph) (L : List (List String)) :
    ∀ s : List RingRec × List (String × String) × Nat,
      ((L.foldl (detectStep G) s).1).map (·.nodes) =
        s.1.map (·.nodes) ++ L.filter (qualifiesRing G) := by
  induction L with
  | nil => intro s; simp
  | cons C L ih =>
    intro s
    rw [List.foldl_cons, ih]
    by_cases h1 : C.length > 1
    · by_cases h2 : has_cycle (subgraphOf G C) = true
      · have hq : qualifiesRing G C = true := by
          unfold qualifiesRing
          simp [h1, h2]
        rw [detectStep_big h1 h2, List.filter_cons_of_pos hq]
        simp
      · have hq : qualifiesRing G C = false := by
          rcases C with _ | ⟨n, t⟩
          · simp at h1
          rcases t with _ | ⟨m, t2⟩
          · simp at h1
          simp only [Bool.not_eq_true] at h2
          simp [qualifiesRing, h2]
        rw [detectStep_big_nocycle h1 h2, List.filter_cons_of_neg (by simp [hq])]
    · rcases C with _ | ⟨n, t⟩
      · rw [detectStep_nil, List.filter_cons_of_neg (by simp [qualifiesRing])]
      rcases t with _ | ⟨m, t2⟩
      · by_cases h3 : hasEdgePair G n n = true
        · have hq : qualifiesRing G [n] = true := by simp [qualifiesRing, h3]
          rw [detectStep_selfloop h3, List.filter_cons_of_pos hq]
          simp
        · simp only [Bool.not_eq_true] at h3
          have hq : qualifiesRing G [n] = false := by simp [qualifiesRing, h3]
          rw [detectStep_noloop h3, List.filter_cons_of_neg (by simp [hq])]
      · exact absurd (by simp) h1

/-- Effect on the fold invariant of emitting one ring whose members are
disjoint from every ring emitted so far. -/
theorem inv_append_ring {s : List RingRec × List (String × String) × Nat} {C : List String}
    (hdisj : ∀ r ∈ s.1, ∀ x, x ∈ r.nodes → x ∉ C)
    (h1 : 1 ≤ s.2.2)
    (hids : ∀ r ∈ s.1, ∃ k, 1 ≤ k ∧ k < s.2.2 ∧ r.ring_id = ringId k)
    (hnodup : (s.1.map (·.ring_id)).Nodup)
    (hlook : ∀ r ∈ s.1, ∀ a ∈ r.nodes, s.2.1.lookup a = some r.ring_id)
    (hcov : ∀ a, ((s.2.1.lookup a)).isSome = true → ∃ r ∈ s.1, a ∈ r.nodes) :
    (∀ r ∈ s.1 ++ [(⟨ringId s.2.2, C⟩ : RingRec)],
      ∃ k, 1 ≤ k ∧ k < s.2.2 + 1 ∧ r.ring_id = ringId k) ∧
    (((s.1 ++ [(⟨ringId s.2.2, C⟩ : RingRec)]).map (·.ring_id)).Nodup) ∧
    (∀ r ∈ s.1 ++ [(⟨ringId s.2.2, C⟩ : RingRec)], ∀ a ∈ r.nodes,
      (s.2.1 ++ C.map (fun n => (n, ringId s.2.2))).lookup a = some r.ring_id) ∧
    (∀ a, (((s.2.1 ++ C.map (fun n => (n, ringId s.2.2))).lookup a)).isSome = true →
      ∃ r ∈ s.1 ++ [(⟨ringId s.2.2, C⟩ : RingRec)], a ∈ r.nodes) := by
  have hfreshLookup : ∀ a ∈ C, s.2.1.lookup a = none := by
    intro a haC
    cases hopt : s.2.1.lookup a with
    | none => rfl
    | some v =>
      exfalso
      obtain ⟨r, hr, har⟩ := hcov a (by rw [hopt]; rfl)
      exact hdisj r hr a har haC
  refine ⟨?_, ?_, ?_, ?_⟩
  · intro r hr
    rcases List.mem_append.1 hr with hm | hm
    · obtain ⟨k, hk1, hk2, hk3⟩ := hids r hm
      exact ⟨k, hk1, by omega, hk3⟩
    · rw [List.mem_singleton] at hm
      subst hm
      exact ⟨s.2.2, h1, by omega, rfl⟩
  · rw [List.map_append, List.map_singleton]
    rw [List.nodup_append]
    refine ⟨hnodup, List.nodup_singleton _, ?_⟩
    intro x hx
    rw [List.mem_singleton]
    intro hxe
    obtain ⟨r, hr, hrid⟩ := List.mem_map.1 hx
    obtain ⟨k, hk1, hk2, hk3⟩ := hids r hr
    rw [← hrid, hk3] at hxe
    have : k = s.2.2 := ringId_inj (by omega) (by omega) hxe
    omega
  · intro r hr a ha
    rcases List.mem_append.1 hr with hm | hm
    · exact lookup_append_some (hlook r hm a ha)
    · rw [List.mem_singleton] at hm
      subst hm
      rw [lookup_append_none (hfreshLookup a ha)]
      exact lookup_map_self ha
  · intro a hsome
    cases hopt : s.2.1.lookup a with
    | some v =>
      obtain ⟨r, hr, har⟩ := hcov a (by rw [hopt]; rfl)
      exact ⟨r, List.mem_append_left _ hr, har⟩
    | none =>
      rw [lookup_append_none hopt] at hsome
      obtain ⟨p, hp, hpa⟩ := mem_of_lookup_isSome hsome
      obtain ⟨n, hn, rfl⟩ := List.mem_map.1 hp
      refine ⟨⟨ringId s.2.2, C⟩, List.mem_append_right _ (List.mem_singleton_self _), ?_⟩
      simpa [← hpa] using hn

theorem detect_fold_inv (G : DiGraph) (L : List (List String))
    (hLdisj : L.Pairwise (fun C1 C2 => ∀ x, x ∈ C1 → x ∉ C2)) :
    ∀ s : List RingRec × List (String × String) × Nat,
      (∀ r ∈ s.1, ∀ C ∈ L, ∀ x, x ∈ r.nodes → x ∉ C) →
      1 ≤ s.2.2 →
      (∀ r ∈ s.1, ∃ k, 1 ≤ k ∧ k < s.2.2 ∧ r.ring_id = ringId k) →
      ((s.1.map (·.ring_id)).Nodup) →
      (∀ r ∈ s.1, ∀ a ∈ r.nodes, s.2.1.lookup a = some r.ring_id) →
      (∀ a, ((s.2.1.lookup a)).isSome = true → ∃ r ∈ s.1, a ∈ r.nodes) →
      (1 ≤ (L.foldl (detectStep G) s).2.2 ∧
       (∀ r ∈ (L.foldl (detectStep G) s).1,
         ∃ k, 1 ≤ k ∧ k < (L.foldl (detectStep G) s).2.2 ∧ r.ring_id = ringId k) ∧
       (((L.foldl (detectStep G) s).1.map (·.ring_id)).Nodup) ∧
       (∀ r ∈ (L.foldl (detectStep G) s).1, ∀ a ∈ r.nodes,
         (L.foldl (detectStep G) s).2.1.lookup a = some r.ring_id) ∧
       (∀ a, (((L.foldl (detectStep G) s).2.1.lookup a)).isSome = true →
         ∃ r ∈ (L.foldl (detectStep G) s).1, a ∈ r.nodes)) := by
  induction L with
  | nil => exact fun s _ h1 h2 h3 h4 h5 => ⟨h1, h2, h3, h4, h5⟩
  | cons C L ih =>
    intro s hfut h1 hids hnodup hlook hcov
    rw [List.pairwise_cons] at hLdisj
    have hfutL : ∀ r ∈ s.1, ∀ C' ∈ L, ∀ x, x ∈ r.nodes → x ∉ C' :=
      fun r hr C' hC' => hfut r hr C' (List.mem_cons_of_mem C hC')
    have hdisjC : ∀ r ∈ s.1, ∀ x, x ∈ r.nodes → x ∉ C :=
      fun r hr => hfut r hr C (List.mem_cons_self C L)
    rw [List.foldl_cons]
    have hemitCase : detectStep G s C = (s.1 ++ [(⟨ringId s.2.2, C⟩ : RingRec)],
        s.2.1 ++ C.map (fun n => (n, ringId s.2.2)), s.2.2 + 1) →
        (1 ≤ (L.foldl (detectStep G) (detectStep G s C)).2.2 ∧
         (∀ r ∈ (L.foldl (detectStep G) (detectStep G s C)).1,
           ∃ k, 1 ≤ k ∧ k < (L.foldl (detectStep G) (detectStep G s C)).2.2 ∧
             r.ring_id = ringId k) ∧
         (((L.foldl (detectStep G) (detectStep G s C)).1.map (·.ring_id)).Nodup) ∧
         (∀ r ∈ (L.foldl (detectStep G) (detectStep G s C)).1, ∀ a ∈ r.nodes,
           (L.foldl (detectStep G) (detectStep G s C)).2.1.lookup a = some r.ring_id) ∧
         (∀ a, (((L.foldl (detectStep G) (detectStep G s C)).2.1.lookup a)).isSome = true →
           ∃ r ∈ (L.foldl (detectStep G) (detectStep G s C)).1, a ∈ r.nodes)) := by
      intro hstep
      have hinv := inv_append_ring hdisjC h1 hids hnodup hlook hcov
      rw [hstep]
      refine ih hLdisj.2 _ ?_ (by simp) ?_ hinv.2.1 hinv.2.2.1 hinv.2.2.2
      · intro r hr C' hC' x hx
        rcases List.mem_append.1 hr with hm | hm
        · exact hfutL r hm C' hC' x hx
        · rw [List.mem_singleton] at hm
          subst hm
          exact hLdisj.1 C' hC' x hx
      · exact hinv.1
    have hskipCase : detectStep G s C = (s.1, s.2.1, s.2.2 + 1) →
        (1 ≤ (L.foldl (detectStep G) (detectStep G s C)).2.2 ∧
         (∀ r ∈ (L.foldl (detectStep G) (detectStep G s C)).1,
           ∃ k, 1 ≤ k ∧ k < (L.foldl (detectStep G) (detectStep G s C)).2.2 ∧
             r.ring_id = ringId k) ∧
         (((L.foldl (detectStep G) (detectStep G s C)).1.map (·.ring_id)).Nodup) ∧
         (∀ r ∈ (L.foldl (detectStep G) (detectStep G s C)).1, ∀ a ∈ r.nodes,
           (L.foldl (detectStep G) (detectStep G s C)).2.1.lookup a = some r.ring_id) ∧
         (∀ a, (((L.foldl (detectStep G) (detectStep G s C)).2.1.lookup a)).isSome = true →
           ∃ r ∈ (L.foldl (detectStep G) (detectStep G s C)).1, a ∈ r.nodes)) := by
      intro hstep
      rw [hstep]
      refine ih hLdisj.2 _ hfutL (by simp) ?_ hnodup hlook hcov
      intro r hr
      obtain ⟨k, hk1, hk2, hk3⟩ := hids r hr
      exact ⟨k, hk1, by simp; omega, hk3⟩
    have hidCase : detectStep G s C = s →
        (1 ≤ (L.foldl (detectStep G) (detectStep G s C)).2.2 ∧
         (∀ r ∈ (L.foldl (detectStep G) (detectStep G s C)).1,
           ∃ k, 1 ≤ k ∧ k < (L.foldl (detectStep G) (detectStep G s C)).2.2 ∧
             r.ring_id = ringId k) ∧
         (((L.foldl (detectStep G) (detectStep G s C)).1.map (·.ring_id)).Nodup) ∧
         (∀ r ∈ (L.foldl (detectStep G) (detectStep G s C)).1, ∀ a ∈ r.nodes,
           (L.foldl (detectStep G) (detectStep G s C)).2.1.lookup a = some r.ring_id) ∧
         (∀ a, (((L.foldl (detectStep G) (detectStep G s C)).2.1.lookup a)).isSome = true →
           ∃ r ∈ (L.foldl (detectStep G) (detectStep G s C)).1, a ∈ r.nodes)) := by
      intro hstep
      rw [hstep]
      exact ih hLdisj.2 s hfutL h1 hids hnodup hlook hcov
    by_cases hb1 : C.length > 1
    · by_cases hb2 : has_cycle (subgraphOf G C) = true
      · exact hemitCase (detectStep_big hb1 hb2 s)
      · exact hskipCase (detectStep_big_nocycle hb1 hb2 s)
    · rcases C with _ | ⟨n, t⟩
      · exact hidCase (detectStep_nil G s)
      rcases t with _ | ⟨m, t2⟩
      · by_cases hb3 : hasEdgePair G n n = true
        · exact hemitCase (by
            rw [detectStep_selfloop hb3 s]
            rfl)
        · simp only [Bool.not_eq_true] at hb3
          exact hidCase (detectStep_noloop hb3 s)
      · exact absurd (by simp) hb1

theorem detect_cycles_nodes_shape (G : DiGraph) :
    ((detect_cycles G).1).map (·.nodes) =
      (strongly_connected_components G).filter (qualifiesRing G) := by
  unfold detect_cycles
  rw [detect_fold_cycles_shape]
  rfl

theorem detect_cycles_inv (G : DiGraph) (hwf : WF G) :
    (((detect_cycles G).1.map (·.ring_id)).Nodup) ∧
    (∀ r ∈ (detect_cycles G).1, ∀ a ∈ r.nodes,
      (detect_cycles G).2.lookup a = some r.ring_id) ∧
    (∀ a, (((detect_cycles G).2.lookup a)).isSome = true →
      ∃ r ∈ (detect_cycles G).1, a ∈ r.nodes) := by
  have h := detect_fold_inv G (strongly_connected_components G)
    (comps_pairwise_disjoint hwf) ([], [], 1)
    (by simp) (by norm_num) (by simp) List.nodup_nil (by simp)
    (by intro a h; simp [List.lookup] at h)
  exact ⟨h.2.2.1, h.2.2.2.1, h.2.2.2.2⟩

theorem ring_nodes_comp {G : DiGraph} {r : RingRec} (hr : r ∈ (detect_cycles G).1) :
    r.nodes ∈ strongly_connected_components G ∧ qualifiesRing G r.nodes = true := by
  have hm : r.nodes ∈ ((detect_cycles G).1).map (·.nodes) := List.mem_map_of_mem _ hr
  rw [detect_cycles_nodes_shape] at hm
  exact ⟨List.mem_of_mem_filter hm, List.of_mem_filter hm⟩

theorem rings_pairwise_disjoint (G : DiGraph) (hwf : WF G) :
    (detect_cycles G).1.Pairwise (fun r1 r2 => ∀ x, x ∈ r1.nodes → x ∉ r2.nodes) := by
  have h1 : (((detect_cycles G).1).map (·.nodes)).Pairwise
      (fun C1 C2 => ∀ x, x ∈ C1 → x ∉ C2) := by
    rw [detect_cycles_nodes_shape]
    exact (comps_pairwise_disjoint hwf).sublist (List.filter_sublist _)
  exact (List.pairwise_map.1 h1)

/-! ### Facts about the orchestrator's per-account entries -/

theorem analysisNode_id (G : DiGraph) (ntr : List (String × String)) (hv : List String)
    (a : String) : (analysisNode G ntr hv a).id = a := rfl

theorem analysisNode_score (G : DiGraph) (ntr : List (String × String)) (hv : List String)
    (a : String) : (analysisNode G ntr hv a).suspicion_score =
      calculate_suspicion_score a G (ntr.lookup a).isSome (decide (a ∈ hv)) := rfl

theorem analysisNode_ring_id (G : DiGraph) (ntr : List (String × String)) (hv : List String)
    (a : String) : (analysisNode G ntr hv a).ring_id = (ntr.lookup a).getD "N/A" := rfl

theorem analysisNode_patterns (G : DiGraph) (ntr : List (String × String)) (hv : List String)
    (a : String) : (analysisNode G ntr hv a).patterns =
      (if (ntr.lookup a).isSome then ["cycle"] else []) ++
      (if G.in_degree a > 5 then ["smurfing"] else []) ++
      (if decide (a ∈ hv) then ["layering"] else []) := rfl

theorem perform_analysis_nodes (pk : Bool) (txs : List Transaction) :
    (perform_analysis pk txs).nodes = (build_graph txs).nodes.map
      (analysisNode (build_graph txs) (detect_cycles (build_graph txs)).2
        (detect_high_velocity pk (build_graph txs) txs)) := rfl

theorem perform_analysis_fraud_rings (pk : Bool) (txs : List Transaction) :
    (perform_analysis pk txs).fraud_rings = (detect_cycles (build_graph txs)).1.map
      (analysisRing ((build_graph txs).nodes.map
        (analysisNode (build_graph txs) (detect_cycles (build_graph txs)).2
          (detect_high_velocity pk (build_graph txs) txs)))) := rfl

theorem perform_analysis_links (pk : Bool) (txs : List Transaction) :
    (perform_analysis pk txs).links = (build_graph txs).edges.map (fun e =>
      { source := e.src, target := e.tgt, amount := e.amount : LinkRec }) := rfl

theorem analysisRing_ring_id (nl : List NodeRec) (c : RingRec) :
    (analysisRing nl c).ring_id = c.ring_id := rfl

theorem analysisRing_members (nl : List NodeRec) (c : RingRec) :
    (analysisRing nl c).member_accounts = c.nodes := rfl

theorem calculate_eq_specScore (a : String) (G : DiGraph) (r v : Bool) :
    calculate_suspicion_score a G r v = specScore r (G.in_degree a) v := by
  unfold calculate_suspicion_score specScore
  cases r <;> cases v <;> by_cases h : G.in_degree a > 5 <;> simp [h]

theorem calculate_le_100 (a : String) (G : DiGraph) (r v : Bool) :
    calculate_suspicion_score a G r v ≤ 100 := by
  unfold calculate_suspicion_score
  exact Nat.min_le_right _ _

theorem calculate_ge_50 (a : String) (G : DiGraph) (v : Bool) :
    50 ≤ calculate_suspicion_score a G true v := by
  rw [calculate_eq_specScore]
  unfold specScore
  rw [if_pos rfl, Nat.le_min]
  constructor
  · have h1 : (0 : Nat) ≤ if G.in_degree a > 5 then min ((G.in_degree a - 5) * 5) 30 else 0 :=
      Nat.zero_le _
    have h2 : (0 : Nat) ≤ if v then 20 else 0 := Nat.zero_le _
    omega
  · omega

/-! ### In-degree in terms of the transaction batch -/

theorem in_degree_eq_pairs_length (G : DiGraph) (a : String) :
    G.in_degree a = ((pairsOf G).filter (fun p => decide (p.2 = a))).length := by
  unfold DiGraph.in_degree pairsOf
  rw [List.filter_map]
  rw [List.length_map]
  rfl

theorem in_degree_counts_distinct_senders (txs : List Transaction) (a : String) :
    (build_graph txs).in_degree a =
      (((txs.filter (fun t => decide (t.receiver_id = a))).map (·.sender_id)).dedup).length := by
  have hwf := wf_build_graph txs
  rw [in_degree_eq_pairs_length]
  set S := (pairsOf (build_graph txs)).filter (fun p => decide (p.2 = a)) with hS
  have hSnodup : S.Nodup := hwf.pair_nodup.filter _
  have hsources : (S.map Prod.fst).Nodup := by
    refine List.Nodup.map_on ?_ hSnodup
    intro p hp q hq hfst
    have hp2 : p.2 = a := by simpa using List.of_mem_filter hp
    have hq2 : q.2 = a := by simpa using List.of_mem_filter hq
    exact Prod.ext hfst (hp2.trans hq2.symm)
  have hcard1 : S.length = (S.map Prod.fst).toFinset.card := by
    rw [List.toFinset_card_of_nodup hsources, List.length_map]
  have hsetEq : (S.map Prod.fst).toFinset =
      ((txs.filter (fun t => decide (t.receiver_id = a))).map (·.sender_id)).toFinset := by
    ext u
    rw [List.mem_toFinset, List.mem_toFinset, List.mem_map, List.mem_map]
    constructor
    · rintro ⟨p, hp, rfl⟩
      have hp2 : p.2 = a := by simpa using List.of_mem_filter hp
      have hpm : p ∈ pairsOf (build_graph txs) := List.mem_of_mem_filter hp
      rw [show p = (p.1, a) from Prod.ext rfl hp2] at hpm
      obtain ⟨t, ht, hts, htr⟩ := mem_pairsOf_build_graph.1 hpm
      exact ⟨t, List.mem_filter.2 ⟨ht, by simpa using htr⟩, hts⟩
    · rintro ⟨t, ht, rfl⟩
      have htx : t ∈ txs := List.mem_of_mem_filter ht
      have htr : t.receiver_id = a := by simpa using List.of_mem_filter ht
      refine ⟨(t.sender_id, a), ?_, rfl⟩
      refine List.mem_filter.2 ⟨?_, by simp⟩
      exact mem_pairsOf_build_graph.2 ⟨t, htx, rfl, htr⟩
  rw [hcard1, hsetEq, List.card_toFinset]

/-! ### The velocity detector's flagging condition -/

theorem mem_detect_high_velocity (txs : List Transaction) (a : String) :
    a ∈ detect_high_velocity true (build_graph txs) txs ↔
      ∃ tin ∈ (txs.filter (fun t => decide (t.receiver_id = a))).map (·.timestamp),
        ∃ tout ∈ (txs.filter (fun t => decide (t.sender_id = a))).map (·.timestamp),
          tin ≤ tout ∧ tout ≤ tin + 15 := by
  unfold detect_high_velocity
  rw [if_pos rfl]
  rw [List.mem_filter]
  constructor
  · rintro ⟨_, hcond⟩
    simp only [List.any_eq_true, Bool.and_eq_true, decide_eq_true_eq] at hcond
    obtain ⟨tin, hin, tout, hout, h1, h2⟩ := hcond
    exact ⟨tin, hin, tout, hout, h1, h2⟩
  · rintro ⟨tin, hin, tout, hout, h1, h2⟩
    have han : a ∈ (build_graph txs).nodes := by
      rw [List.mem_map] at hin
      obtain ⟨t, ht, _⟩ := hin
      have htx : t ∈ txs := List.mem_of_mem_filter ht
      have htr : t.receiver_id = a := by simpa using List.of_mem_filter ht
      exact mem_build_graph_nodes.2 ⟨t, htx, Or.inr htr⟩
    refine ⟨han, ?_⟩
    simp only [List.any_eq_true, Bool.and_eq_true, decide_eq_true_eq]
    exact ⟨tin, hin, tout, hout, h1, h2⟩

theorem links_map_pair (pk : Bool) (txs : List Transaction) :
    (perform_analysis pk txs).links.map (fun l => (l.source, l.target)) =
      pairsOf (build_graph txs) := by
  rw [perform_analysis_links, List.map_map]
  rfl

/-! ### Support for the ring-summary claims -/

theorem sccOf_eq_filter_decide {G : DiGraph} {u : String} :
    G.nodes.filter (fun v => decide (v ∈ sccOf G u)) = sccOf G u := by
  conv_rhs => rw [sccOf]
  apply List.filter_congr
  intro v hv
  rcases hb : (reachb G u v && reachb G v u) with _ | _
  · simp only [decide_eq_false_iff_not]
    intro hmem
    rw [sccOf, List.mem_filter] at hmem
    rw [hmem.2] at hb
    simp at hb
  · simp only [decide_eq_true_eq]
    rw [sccOf, List.mem_filter]
    exact ⟨hv, hb⟩

theorem filter_map_nodes_of_comp {G : DiGraph}
    (f : String → NodeRec) (hid : ∀ a, (f a).id = a) {C : List String}
    (hC : C ∈ strongly_connected_components G) :
    (G.nodes.map f).filter (fun n => decide (n.id ∈ C)) = C.map f := by
  rw [List.filter_map]
  obtain ⟨u, hu, rfl⟩ := comps_are_sccs hC
  congr 1
  have hpred : ∀ a ∈ G.nodes,
      ((fun n => decide (n.id ∈ sccOf G u)) ∘ f) a = decide (a ∈ sccOf G u) := by
    intro a _
    simp [Function.comp_apply, hid a]
  rw [List.filter_congr hpred]
  exact sccOf_eq_filter_decide

theorem foldl_append_eq_flatten (l : List NodeRec) (init : List String) :
    l.foldl (fun acc n => acc ++ n.patterns) init = init ++ (l.map (·.patterns)).flatten := by
  induction l generalizing init with
  | nil => simp
  | cons n t ih =>
    rw [List.foldl_cons, ih, List.map_cons, List.flatten_cons, List.append_assoc]

theorem sum_ge_const_mul_length (l : List Nat) (c : Nat) (h : ∀ x ∈ l, c ≤ x) :
    c * l.length ≤ l.sum := by
  induction l with
  | nil => simp
  | cons x t ih =>
    rw [List.sum_cons, List.length_cons, Nat.mul_succ]
    have h1 := h x (List.mem_cons_self x t)
    have h2 := ih (fun y hy => h y (List.mem_cons_of_mem x hy))
    omega

theorem roundHalfEven_ge_floor (q : ℚ) : ⌊q⌋ ≤ roundHalfEven q := by
  simp only [roundHalfEven]
  split
  · exact le_refl _
  · split
    · omega
    · split <;> omega

theorem round2_ge_50 {q : ℚ} (h : (50 : ℚ) ≤ q) : (50 : ℚ) ≤ round2 q := by
  unfold round2
  have h1 : (5000 : ℚ) ≤ q * 100 := by linarith
  have h2 : (5000 : ℤ) ≤ ⌊q * 100⌋ := by
    rw [Int.le_floor]
    exact_mod_cast h1
  have h3 : (5000 : ℤ) ≤ roundHalfEven (q * 100) := le_trans h2 (roundHalfEven_ge_floor _)
  have h4 : (5000 : ℚ) ≤ (roundHalfEven (q * 100) : ℚ) := by exact_mod_cast h3
  linarith

theorem singleton_of_all_eq {l : List String} {u : String} (hnd : l.Nodup) (hu : u ∈ l)
    (hall : ∀ v ∈ l, v = u) : l = [u] := by
  cases l with
  | nil => exact absurd hu (List.not_mem_nil u)
  | cons a t =>
    have ha : a = u := hall a (List.mem_cons_self a t)
    subst ha
    cases t with
    | nil => rfl
    | cons b t2 =>
      have hb : b = a := hall b (List.mem_cons_of_mem a (List.mem_cons_self b t2))
      rw [List.nodup_cons] at hnd
      exact absurd (hb ▸ List.mem_cons_self b t2) hnd.1

theorem one_lt_length_of_two_mem {l : List String} {u v : String} (hnd : l.Nodup)
    (hu : u ∈ l) (hv : v ∈ l) (hne : u ≠ v) : 1 < l.length := by
  have hsub : ({u, v} : Finset String) ⊆ l.toFinset := by
    intro x hx
    rw [List.mem_toFinset]
    rcases Finset.mem_insert.1 hx with rfl | hx
    · exact hu
    · rw [Finset.mem_singleton] at hx
      subst hx
      exact hv
  have hcard : ({u, v} : Finset String).card = 2 := Finset.card_pair hne
  have := Finset.card_le_card hsub
  rw [hcard, List.toFinset_card_of_nodup hnd] at this
  omega

/-! ### Concrete batches used for witnesses and counterexamples -/

theorem mem_patterns_iff (G : DiGraph) (ntr : List (String × String)) (hv : List String)
    (a : String) :
    ("cycle" ∈ (analysisNode G ntr hv a).patterns ↔ (ntr.lookup a).isSome = true) ∧
    ("smurfing" ∈ (analysisNode G ntr hv a).patterns ↔ G.in_degree a > 5) ∧
    ("layering" ∈ (analysisNode G ntr hv a).patterns ↔ a ∈ hv) := by
  rw [analysisNode_patterns]
  by_cases h1 : (ntr.lookup a).isSome = true <;>
    by_cases h2 : G.in_degree a > 5 <;>
    by_cases h3 : a ∈ hv <;>
    simp [h1, h2, h3]

/-! ### Claim theorems -/

/-- C1 (amended): the `in_degree` used by the suspicion scorer equals
the number of DISTINCT sender accounts that sent at least one
transaction to the account, not the number of incoming transactions
counted with multiplicity: the `DiGraph` collapses repeated
sender/receiver pairs to one edge. -/
theorem c1_thm (txs : List Transaction) (a : String) :
    (build_graph txs).in_degree a =
      (((txs.filter (fun t => decide (t.receiver_id = a))).map (·.sender_id)).dedup).length :=
  in_degree_counts_distinct_senders txs a

/-- C1 counterexample: an account receiving 6 transfers from one single
sender has in-degree 1, not 6 as the claim states — the multigraph
property fails on the code's `nx.DiGraph`. -/
theorem c1_counterexample :
    (build_graph txsRepeat6).in_degree "M" = 1 ∧
    (txsRepeat6.filter (fun t => decide (t.receiver_id = "M"))).length = 6 ∧
    ¬ ((build_graph txsRepeat6).in_degree "M" =
        (txsRepeat6.filter (fun t => decide (t.receiver_id = "M"))).length) := by
  refine ⟨by decide, by decide, by decide⟩

/-- C2: an account is flagged high-velocity iff some incoming timestamp
`t_in` has an outgoing timestamp `t_out` with
`t_in ≤ t_out ≤ t_in + 15` (bounds inclusive); an account with no
incoming or no outgoing transactions is never flagged. -/
theorem c2_thm (txs : List Transaction) (a : String) :
    (a ∈ detect_high_velocity true (build_graph txs) txs ↔
      ∃ tin ∈ (txs.filter (fun t => decide (t.receiver_id = a))).map (·.timestamp),
        ∃ tout ∈ (txs.filter (fun t => decide (t.sender_id = a))).map (·.timestamp),
          tin ≤ tout ∧ tout ≤ tin + 15) ∧
    ((txs.filter (fun t => decide (t.receiver_id = a)) = [] ∨
      txs.filter (fun t => decide (t.sender_id = a)) = []) →
      a ∉ detect_high_velocity true (build_graph txs) txs) := by
  refine ⟨mem_detect_high_velocity txs a, ?_⟩
  intro hempty hmem
  rw [mem_detect_high_velocity] at hmem
  obtain ⟨tin, hin, tout, hout, _, _⟩ := hmem
  rcases hempty with h | h
  · rw [h] at hin
    simp at hin
  · rw [h] at hout
    simp at hout

/-- C2 witness: in the A → B → C → A cycle batch, B receives at t=0 and
sends at t=5, so B is flagged; a stranger account Z is not. -/
theorem c2_witness :
    ("B" ∈ detect_high_velocity true (build_graph txsCycle) txsCycle) ∧
    ("Z" ∉ detect_high_velocity true (build_graph txsCycle) txsCycle) :=
  ⟨(c2_thm txsCycle "B").1.mpr (by decide), (c2_thm txsCycle "Z").2 (Or.inl (by decide))⟩

/-- C5 (amended): the links list contains exactly one entry per DISTINCT
ordered (sender, receiver) pair of the batch — not one per transaction —
and its amount is the amount of the LAST transaction of the batch for
that pair. -/
theorem c5_thm (pk : Bool) (txs : List Transaction) :
    (((perform_analysis pk txs).links.map (fun l => (l.source, l.target))).Nodup) ∧
    (∀ u v : String,
      (u, v) ∈ (perform_analysis pk txs).links.map (fun l => (l.source, l.target)) ↔
        ∃ t ∈ txs, t.sender_id = u ∧ t.receiver_id = v) ∧
    (∀ l ∈ (perform_analysis pk txs).links,
      ∃ t, lastTxFor txs l.source l.target = some t ∧ t.amount = l.amount) := by
  refine ⟨?_, ?_, ?_⟩
  · rw [links_map_pair]
    exact (wf_build_graph txs).pair_nodup
  · intro u v
    rw [links_map_pair]
    exact mem_pairsOf_build_graph
  · intro l hl
    rw [perform_analysis_links, List.mem_map] at hl
    obtain ⟨e, he, rfl⟩ := hl
    obtain ⟨t, h1, _, _, ham, _, _⟩ := edge_data_eq_lastTx e he
    exact ⟨t, h1, ham⟩

/-- C5 witness: for the two-transfer batch A → B (10 then 20) the single
link's amount is the last transaction's. -/
theorem c5_witness :
    ∃ t, lastTxFor txsPair "A" "B" = some t ∧ t.amount = (20 : Int) :=
  (c5_thm true txsPair).2.2 ⟨"A", "B", 20⟩ (by decide)

/-- C5 counterexample: two transactions between the same ordered pair
produce ONE link (with the later amount), so the links list does not
contain one entry per input transaction. -/
theorem c5_counterexample :
    (perform_analysis true txsPair).links = [⟨"A", "B", 20⟩] ∧
    txsPair.length = 2 ∧
    ¬ ((perform_analysis true txsPair).links.length = txsPair.length) := by
  refine ⟨by decide, by decide, by decide⟩

/-- C7: every account's suspicion score lies in [0, 100]. -/
theorem c7_thm (pk : Bool) (txs : List Transaction) :
    ∀ n ∈ (perform_analysis pk txs).nodes,
      0 ≤ n.suspicion_score ∧ n.suspicion_score ≤ 100 := by
  intro n hn
  rw [perform_analysis_nodes, List.mem_map] at hn
  obtain ⟨a, _, rfl⟩ := hn
  rw [analysisNode_score]
  exact ⟨Nat.zero_le _, calculate_le_100 _ _ _ _⟩

/-- C7 witness: the bound evaluated on a member of the cycle batch. -/
theorem c7_witness :
    0 ≤ (nodeFor true txsCycle "A").suspicion_score ∧
      (nodeFor true txsCycle "A").suspicion_score ≤ 100 :=
  c7_thm true txsCycle (nodeFor true txsCycle "A") (by decide)

/-- C9: when timestamp parsing fails for the batch, the velocity
detector returns the empty set instead of raising, no account carries
the `layering` pattern, and the rest of the pipeline still completes:
the result enumerates every account, every stored edge and every
detected ring. -/
theorem c9_thm (txs : List Transaction) :
    detect_high_velocity false (build_graph txs) txs = [] ∧
    (∀ n ∈ (perform_analysis false txs).nodes, "layering" ∉ n.patterns) ∧
    ((perform_analysis false txs).nodes.map (·.id) = (build_graph txs).nodes) ∧
    ((perform_analysis false txs).links.length = (build_graph txs).edges.length) ∧
    ((perform_analysis false txs).summary.total_accounts_analyzed =
      (build_graph txs).nodes.length) ∧
    ((perform_analysis false txs).summary.fraud_rings_detected =
      (detect_cycles (build_graph txs)).1.length) := by
  refine ⟨rfl, ?_, ?_, ?_, rfl, ?_⟩
  · intro n hn
    rw [perform_analysis_nodes, List.mem_map] at hn
    obtain ⟨a, _, rfl⟩ := hn
    intro hmem
    have h := ((mem_patterns_iff _ _ _ a).2.2).1 hmem
    have : detect_high_velocity false (build_graph txs) txs = [] := rfl
    rw [this] at h
    exact List.not_mem_nil a h
  · rw [perform_analysis_nodes, List.map_map]
    have : ∀ a ∈ (build_graph txs).nodes,
        ((fun n : NodeRec => n.id) ∘ (analysisNode (build_graph txs)
          (detect_cycles (build_graph txs)).2
          (detect_high_velocity false (build_graph txs) txs))) a = a := fun a _ => rfl
    rw [List.map_congr_left this]
    exact List.map_id _
  · rw [perform_analysis_links, List.length_map]
  · have : (perform_analysis false txs).summary.fraud_rings_detected =
        ((detect_cycles (build_graph txs)).1.map (analysisRing _)).length := rfl
    rw [this, List.length_map]

/-- C9 witness: in the cycle batch with parsing failed, account B
(flagged when parsing succeeds) carries no layering pattern. -/
theorem c9_witness : "layering" ∉ (nodeFor false txsCycle "B").patterns :=
  (c9_thm txsCycle).2.1 (nodeFor false txsCycle "B") (by decide)

/-- C3: each account's suspicion score is the deterministic function of
(is_in_ring, in_degree, is_high_velocity) given by the spec's formula
(`specScore`), and the cycle / smurfing / layering pattern labels attach
exactly when their respective conditions hold, independently of the
100-point cap. -/
theorem c3_thm (pk : Bool) (txs : List Transaction) :
    ∀ n ∈ (perform_analysis pk txs).nodes,
      ∃ a ∈ (build_graph txs).nodes, n = nodeFor pk txs a ∧
        n.suspicion_score = specScore ((detect_cycles (build_graph txs)).2.lookup a).isSome
          ((build_graph txs).in_degree a)
          (decide (a ∈ detect_high_velocity pk (build_graph txs) txs)) ∧
        ("cycle" ∈ n.patterns ↔
          ((detect_cycles (build_graph txs)).2.lookup a).isSome = true) ∧
        ("smurfing" ∈ n.patterns ↔ (build_graph txs).in_degree a > 5) ∧
        ("layering" ∈ n.patterns ↔ a ∈ detect_high_velocity pk (build_graph txs) txs) := by
  intro n hn
  rw [perform_analysis_nodes, List.mem_map] at hn
  obtain ⟨a, ha, rfl⟩ := hn
  refine ⟨a, ha, rfl, ?_, ?_, ?_, ?_⟩
  · rw [analysisNode_score, calculate_eq_specScore]
  · exact (mem_patterns_iff _ _ _ a).1
  · exact (mem_patterns_iff _ _ _ a).2.1
  · exact (mem_patterns_iff _ _ _ a).2.2

/-- C3 witness: instantiated on account B of the cycle batch. -/
theorem c3_witness :
    ∃ a ∈ (build_graph txsCycle).nodes, nodeFor true txsCycle "B" = nodeFor true txsCycle a ∧
      (nodeFor true txsCycle "B").suspicion_score =
        specScore ((detect_cycles (build_graph txsCycle)).2.lookup a).isSome
          ((build_graph txsCycle).in_degree a)
          (decide (a ∈ detect_high_velocity true (build_graph txsCycle) txsCycle)) ∧
      ("cycle" ∈ (nodeFor true txsCycle "B").patterns ↔
        ((detect_cycles (build_graph txsCycle)).2.lookup a).isSome = true) ∧
      ("smurfing" ∈ (nodeFor true txsCycle "B").patterns ↔
        (build_graph txsCycle).in_degree a > 5) ∧
      ("layering" ∈ (nodeFor true txsCycle "B").patterns ↔
        a ∈ detect_high_velocity true (build_graph txsCycle) txsCycle) :=
  c3_thm true txsCycle (nodeFor true txsCycle "B") (by decide)

/-- C6: every account listed in a ring's member_accounts has that ring's
id as its ring_id, no account belongs to two rings, and ring ids are
unique within the run. -/
theorem c6_thm (pk : Bool) (txs : List Transaction) :
    (∀ r ∈ (perform_analysis pk txs).fraud_rings, ∀ n ∈ (perform_analysis pk txs).nodes,
      n.id ∈ r.member_accounts → n.ring_id = r.ring_id) ∧
    ((perform_analysis pk txs).fraud_rings.Pairwise
      (fun r1 r2 => ∀ x, x ∈ r1.member_accounts → x ∉ r2.member_accounts)) ∧
    (((perform_analysis pk txs).fraud_rings.map (·.ring_id)).Nodup) := by
  have hwf := wf_build_graph txs
  have hinv := detect_cycles_inv (build_graph txs) hwf
  refine ⟨?_, ?_, ?_⟩
  · intro r hr n hn hid
    rw [perform_analysis_fraud_rings, List.mem_map] at hr
    obtain ⟨c, hc, rfl⟩ := hr
    rw [perform_analysis_nodes, List.mem_map] at hn
    obtain ⟨a, _, rfl⟩ := hn
    rw [analysisNode_id] at hid
    rw [analysisRing_members] at hid
    have hlook := hinv.2.1 c hc a hid
    rw [analysisNode_ring_id, analysisRing_ring_id, hlook]
    rfl
  · rw [perform_analysis_fraud_rings]
    rw [List.pairwise_map]
    have hp := rings_pairwise_disjoint (build_graph txs) hwf
    refine hp.imp ?_
    intro r1 r2 h x hx
    rw [analysisRing_members] at hx ⊢
    exact h x hx
  · rw [perform_analysis_fraud_rings, List.map_map]
    have heq : ((fun r : FraudRing => r.ring_id) ∘ analysisRing
        ((build_graph txs).nodes.map (analysisNode (build_graph txs)
          (detect_cycles (build_graph txs)).2
          (detect_high_velocity pk (build_graph txs) txs)))) =
        fun c : RingRec => c.ring_id := rfl
    rw [heq]
    exact hinv.1

/-- C6 witness: in the cycle batch, account A's node carries the id of
the single detected ring. -/
theorem c6_witness :
    (nodeFor true txsCycle "A").ring_id =
      (FraudRing.mk "RING_001" ["A", "B", "C"] "layering" 6333).ring_id :=
  (c6_thm true txsCycle).1 ⟨"RING_001", ["A", "B", "C"], "layering", 6333⟩
    (by decide) (nodeFor true txsCycle "A") (by decide) (by decide)

/-! ### The fixed-point rounding agrees with round-half-even on ℚ -/

theorem analysisRing_risk (nl : List NodeRec) (c : RingRec) :
    (analysisRing nl c).risk_score_x100 =
      if (((nl.filter (fun n => decide (n.id ∈ c.nodes))).map (·.suspicion_score)).length ≠ 0)
      then bankersRound
        (100 * ((nl.filter (fun n => decide (n.id ∈ c.nodes))).map (·.suspicion_score)).sum)
        (((nl.filter (fun n => decide (n.id ∈ c.nodes))).map (·.suspicion_score)).length)
      else 0 := rfl

theorem analysisRing_ptype (nl : List NodeRec) (c : RingRec) :
    (analysisRing nl c).pattern_type =
      (if "smurfing" ∈ ((nl.filter (fun n => decide (n.id ∈ c.nodes))).foldl
            (fun acc n => acc ++ n.patterns) []) ∧
          "cycle" ∈ ((nl.filter (fun n => decide (n.id ∈ c.nodes))).foldl
            (fun acc n => acc ++ n.patterns) [])
       then "hybrid"
       else if "layering" ∈ ((nl.filter (fun n => decide (n.id ∈ c.nodes))).foldl
            (fun acc n => acc ++ n.patterns) [])
       then "layering"
       else "cycle") := rfl

theorem bankersRound_eq_roundHalfEven (N l : Nat) (hl : l ≠ 0) :
    (bankersRound N l : ℤ) = roundHalfEven ((N : ℚ) / (l : ℚ)) := by
  have hl0 : (0 : ℚ) < (l : ℚ) := by
    have : 0 < l := Nat.pos_of_ne_zero hl
    exact_mod_cast this
  have hfloor : ⌊(N : ℚ) / (l : ℚ)⌋ = ((N / l : ℕ) : ℤ) := by
    rw [Rat.floor_natCast_div_natCast]
    exact (Int.ofNat_ediv N l).symm
  have hmod : N = l * (N / l) + N % l := (Nat.div_add_mod N l).symm
  have hcast : (N : ℚ) = (l : ℚ) * ((N / l : ℕ) : ℚ) + ((N % l : ℕ) : ℚ) := by
    exact_mod_cast congrArg (Nat.cast : ℕ → ℚ) hmod
  have hfrac : (N : ℚ) / (l : ℚ) - (((N / l : ℕ) : ℤ) : ℚ) = ((N % l : ℕ) : ℚ) / (l : ℚ) := by
    rw [eq_div_iff (ne_of_gt hl0), sub_mul, div_mul_cancel₀ _ (ne_of_gt hl0),
      Int.cast_natCast]
    linear_combination hcast
  have hlt : (((N % l : ℕ) : ℚ) / (l : ℚ) < 1 / 2) ↔ (2 * (N % l) < l) := by
    rw [div_lt_div_iff₀ hl0 (by norm_num : (0 : ℚ) < 2)]
    constructor
    · intro h
      have h2 : ((2 * (N % l) : ℕ) : ℚ) < ((l : ℕ) : ℚ) := by push_cast; linarith
      exact_mod_cast h2
    · intro h
      have h2 : ((2 * (N % l) : ℕ) : ℚ) < ((l : ℕ) : ℚ) := by exact_mod_cast h
      push_cast at h2
      linarith
  have hgt : ((1 : ℚ) / 2 < ((N % l : ℕ) : ℚ) / (l : ℚ)) ↔ (l < 2 * (N % l)) := by
    rw [div_lt_div_iff₀ (by norm_num : (0 : ℚ) < 2) hl0]
    constructor
    · intro h
      have h2 : ((l : ℕ) : ℚ) < ((2 * (N % l) : ℕ) : ℚ) := by push_cast; linarith
      exact_mod_cast h2
    · intro h
      have h2 : ((l : ℕ) : ℚ) < ((2 * (N % l) : ℕ) : ℚ) := by exact_mod_cast h
      push_cast at h2
      linarith
  have heven : (((N / l : ℕ) : ℤ) % 2 = 0) ↔ (N / l % 2 = 0) := by omega
  simp only [roundHalfEven, bankersRound, hfloor, hfrac]
  rcases Nat.lt_trichotomy (2 * (N % l)) l with hc | hc | hc
  · rw [if_pos (hlt.2 hc), if_pos hc]
  · have h1 : ¬(((N % l : ℕ) : ℚ) / (l : ℚ) < 1 / 2) := by rw [hlt]; omega
    have h2 : ¬((1 : ℚ) / 2 < ((N % l : ℕ) : ℚ) / (l : ℚ)) := by rw [hgt]; omega
    rw [if_neg h1, if_neg h2, if_neg (by omega : ¬ 2 * (N % l) < l),
      if_neg (by omega : ¬ 2 * (N % l) > l)]
    by_cases hev : N / l % 2 = 0
    · rw [if_pos (heven.2 hev), if_pos hev]
    · rw [if_neg (fun hcon => hev (heven.1 hcon)), if_neg hev]
      push_cast
      ring
  · have h1 : ¬(((N % l : ℕ) : ℚ) / (l : ℚ) < 1 / 2) := by rw [hlt]; omega
    rw [if_neg h1, if_pos (hgt.2 hc), if_neg (by omega : ¬ 2 * (N % l) < l),
      if_pos (by omega : 2 * (N % l) > l)]
    push_cast
    ring

theorem bankersRound_eq_round2 (s l : Nat) (hl : l ≠ 0) :
    (bankersRound (100 * s) l : ℚ) = 100 * round2 ((s : ℚ) / (l : ℚ)) := by
  have hl0 : (0 : ℚ) < (l : ℚ) := by
    have : 0 < l := Nat.pos_of_ne_zero hl
    exact_mod_cast this
  unfold round2
  have hm : ((s : ℚ) / (l : ℚ)) * 100 = ((100 * s : ℕ) : ℚ) / (l : ℚ) := by
    push_cast
    ring
  rw [hm, mul_div_cancel₀ _ (by norm_num : (100 : ℚ) ≠ 0)]
  rw [← bankersRound_eq_roundHalfEven (100 * s) l hl]
  rfl

theorem bankersRound_ge_div (num den : Nat) : num / den ≤ bankersRound num den := by
  simp only [bankersRound]
  split
  · exact le_refl _
  · split
    · omega
    · split <;> omega

theorem member_nodes_eq (pk : Bool) (txs : List Transaction) {c : RingRec}
    (hc : c ∈ (detect_cycles (build_graph txs)).1) :
    (((build_graph txs).nodes.map (analysisNode (build_graph txs)
      (detect_cycles (build_graph txs)).2
      (detect_high_velocity pk (build_graph txs) txs))).filter
        (fun n => decide (n.id ∈ c.nodes))) =
      c.nodes.map (analysisNode (build_graph txs) (detect_cycles (build_graph txs)).2
        (detect_high_velocity pk (build_graph txs) txs)) :=
  filter_map_nodes_of_comp _ (fun _ => rfl) (ring_nodes_comp hc).1

/-- C8: each ring's stored risk (in hundredths) is the arithmetic mean
of its member accounts' suspicion scores rounded half-to-even to two
decimal places (`round2`), 0 when there are no scored members; its
pattern_type is `hybrid` when both smurfing and cycle appear among the
union of member pattern labels, else `layering` when layering appears,
else `cycle`. -/
theorem c8_thm (pk : Bool) (txs : List Transaction) :
    ∀ r ∈ (perform_analysis pk txs).fraud_rings,
      (r.member_accounts.map (fun a => (nodeFor pk txs a).suspicion_score) = [] →
        r.risk_score_x100 = 0) ∧
      (r.member_accounts.map (fun a => (nodeFor pk txs a).suspicion_score) ≠ [] →
        (r.risk_score_x100 : ℚ) = 100 * round2
          (((r.member_accounts.map (fun a => (nodeFor pk txs a).suspicion_score)).sum : ℚ) /
            ((r.member_accounts.map (fun a => (nodeFor pk txs a).suspicion_score)).length : ℚ))) ∧
      (r.pattern_type =
        if "smurfing" ∈ (r.member_accounts.map (fun a => (nodeFor pk txs a).patterns)).flatten ∧
            "cycle" ∈ (r.member_accounts.map (fun a => (nodeFor pk txs a).patterns)).flatten
        then "hybrid"
        else if "layering" ∈
            (r.member_accounts.map (fun a => (nodeFor pk txs a).patterns)).flatten
        then "layering"
        else "cycle") := by
  intro r hr
  rw [perform_analysis_fraud_rings, List.mem_map] at hr
  obtain ⟨c, hc, rfl⟩ := hr
  have hmn := member_nodes_eq pk txs hc
  simp only [analysisRing_members]
  have hscores : ((((build_graph txs).nodes.map (analysisNode (build_graph txs)
      (detect_cycles (build_graph txs)).2
      (detect_high_velocity pk (build_graph txs) txs))).filter
        (fun n => decide (n.id ∈ c.nodes))).map (·.suspicion_score)) =
      c.nodes.map (fun a => (nodeFor pk txs a).suspicion_score) := by
    rw [hmn, List.map_map]
    rfl
  have hpats : ((((build_graph txs).nodes.map (analysisNode (build_graph txs)
      (detect_cycles (build_graph txs)).2
      (detect_high_velocity pk (build_graph txs) txs))).filter
        (fun n => decide (n.id ∈ c.nodes))).foldl (fun acc n => acc ++ n.patterns) []) =
      (c.nodes.map (fun a => (nodeFor pk txs a).patterns)).flatten := by
    rw [foldl_append_eq_flatten, List.nil_append, hmn, List.map_map]
    rfl
  refine ⟨?_, ?_, ?_⟩
  · intro hempty
    rw [analysisRing_risk, hscores]
    rw [if_neg (by rw [hempty]; simp)]
  · intro hne
    have hlen : (c.nodes.map (fun a => (nodeFor pk txs a).suspicion_score)).length ≠ 0 := by
      intro hcon
      exact hne (List.length_eq_zero.1 hcon)
    rw [analysisRing_risk, hscores, if_pos (by exact hlen)]
    exact bankersRound_eq_round2 _ _ hlen
  · rw [analysisRing_ptype, hpats]

/-- C8 witness: the single ring of the cycle batch, whose members'
patterns include layering but not smurfing, is classified `layering`. -/
theorem c8_witness :
    (FraudRing.mk "RING_001" ["A", "B", "C"] "layering" 6333).pattern_type =
      if "smurfing" ∈ ((["A", "B", "C"] : List String).map
            (fun a => (nodeFor true txsCycle a).patterns)).flatten ∧
          "cycle" ∈ ((["A", "B", "C"] : List String).map
            (fun a => (nodeFor true txsCycle a).patterns)).flatten
      then "hybrid"
      else if "layering" ∈ ((["A", "B", "C"] : List String).map
            (fun a => (nodeFor true txsCycle a).patterns)).flatten
      then "layering"
      else "cycle" :=
  ((c8_thm true txsCycle ⟨"RING_001", ["A", "B", "C"], "layering", 6333⟩ (by decide)).2.2)

/-- C10: every ring member carries the `cycle` pattern and a suspicion
score of at least 50, the ring has at least one scored member (the
zero-member fallback is never taken), and the ring's risk score is at
least 50 (5000 in stored hundredths). -/
theorem c10_thm (pk : Bool) (txs : List Transaction) :
    ∀ r ∈ (perform_analysis pk txs).fraud_rings,
      r.member_accounts ≠ [] ∧
      (∀ n ∈ (perform_analysis pk txs).nodes, n.id ∈ r.member_accounts →
        "cycle" ∈ n.patterns ∧ 50 ≤ n.suspicion_score) ∧
      5000 ≤ r.risk_score_x100 ∧
      (50 : ℚ) ≤ (r.risk_score_x100 : ℚ) / 100 := by
  intro r hr
  have hwf := wf_build_graph txs
  have hinv := detect_cycles_inv (build_graph txs) hwf
  rw [perform_analysis_fraud_rings, List.mem_map] at hr
  obtain ⟨c, hc, rfl⟩ := hr
  have hmn := member_nodes_eq pk txs hc
  simp only [analysisRing_members]
  have hne : c.nodes ≠ [] := by
    intro hcon
    have hq := (ring_nodes_comp hc).2
    rw [hcon] at hq
    simp [qualifiesRing] at hq
  have hscore50 : ∀ a ∈ c.nodes, 50 ≤ (analysisNode (build_graph txs)
      (detect_cycles (build_graph txs)).2
      (detect_high_velocity pk (build_graph txs) txs) a).suspicion_score := by
    intro a ha
    have hlook := hinv.2.1 c hc a ha
    rw [analysisNode_score, hlook]
    exact calculate_ge_50 _ _ _
  have hrisk : 5000 ≤ (analysisRing ((build_graph txs).nodes.map
      (analysisNode (build_graph txs) (detect_cycles (build_graph txs)).2
        (detect_high_velocity pk (build_graph txs) txs))) c).risk_score_x100 := by
    rw [analysisRing_risk, hmn, List.map_map]
    have hlen : (c.nodes.map ((fun n : NodeRec => n.suspicion_score) ∘
        analysisNode (build_graph txs) (detect_cycles (build_graph txs)).2
          (detect_high_velocity pk (build_graph txs) txs))).length ≠ 0 := by
      rw [List.length_map]
      intro hcon
      exact hne (List.length_eq_zero.1 hcon)
    rw [if_pos hlen]
    set S := c.nodes.map ((fun n : NodeRec => n.suspicion_score) ∘
      analysisNode (build_graph txs) (detect_cycles (build_graph txs)).2
        (detect_high_velocity pk (build_graph txs) txs)) with hS
    have hall : ∀ x ∈ S, 50 ≤ x := by
      intro x hx
      rw [hS, List.mem_map] at hx
      obtain ⟨a, ha, rfl⟩ := hx
      exact hscore50 a ha
    have hsum : 50 * S.length ≤ S.sum := sum_ge_const_mul_length S 50 hall
    have hlen0 : 0 < S.length := Nat.pos_of_ne_zero hlen
    have hdiv : 5000 ≤ 100 * S.sum / S.length := by
      rw [Nat.le_div_iff_mul_le hlen0]
      omega
    exact le_trans hdiv (bankersRound_ge_div _ _)
  refine ⟨hne, ?_, hrisk, ?_⟩
  · intro n hn hid
    rw [perform_analysis_nodes, List.mem_map] at hn
    obtain ⟨a, _, rfl⟩ := hn
    rw [analysisNode_id] at hid
    have hlook := hinv.2.1 c hc a hid
    constructor
    · exact (mem_patterns_iff _ _ _ a).1.mpr (by rw [hlook]; rfl)
    · rw [analysisNode_score, hlook]
      exact calculate_ge_50 _ _ _
  · rw [le_div_iff₀ (by norm_num : (0 : ℚ) < 100)]
    have : ((5000 : ℕ) : ℚ) ≤ ((analysisRing ((build_graph txs).nodes.map
        (analysisNode (build_graph txs) (detect_cycles (build_graph txs)).2
          (detect_high_velocity pk (build_graph txs) txs))) c).risk_score_x100 : ℚ) := by
      exact_mod_cast hrisk
    push_cast at this ⊢
    linarith

/-- C10 witness: the cycle batch's ring has stored risk 6333 ≥ 5000. -/
theorem c10_witness :
    5000 ≤ (FraudRing.mk "RING_001" ["A", "B", "C"] "layering" 6333).risk_score_x100 :=
  ((c10_thm true txsCycle ⟨"RING_001", ["A", "B", "C"], "layering", 6333⟩ (by decide)).2.2.1)

/-- C4: the ring detector emits exactly one ring per strongly connected
component of size > 1 with member_accounts the full component, one ring
per size-1 component with a self-loop, and none for a size-1 component
without a self-loop.  Stated via mutual reachability (`InSameSCC`):
(1) every ring's member set is the full SCC of each of its members;
(2) every account with a non-trivial SCC lies in some ring;
(3) for an account alone in its SCC, a ring (exactly `[u]`) exists iff
    it has a self-loop;
(4) distinct rings have disjoint members (so the ring per SCC is
    unique). -/
theorem c4_thm (txs : List Transaction) :
    (∀ r ∈ (detect_cycles (build_graph txs)).1, ∀ u ∈ r.nodes,
      u ∈ (build_graph txs).nodes ∧
      (∀ x, x ∈ r.nodes ↔ x ∈ (build_graph txs).nodes ∧ InSameSCC (build_graph txs) u x)) ∧
    (∀ u ∈ (build_graph txs).nodes,
      (∃ v ∈ (build_graph txs).nodes, v ≠ u ∧ InSameSCC (build_graph txs) u v) →
      ∃ r ∈ (detect_cycles (build_graph txs)).1, u ∈ r.nodes) ∧
    (∀ u ∈ (build_graph txs).nodes,
      (∀ v ∈ (build_graph txs).nodes, InSameSCC (build_graph txs) u v → v = u) →
      ((hasEdgePair (build_graph txs) u u = true →
        ∃ r ∈ (detect_cycles (build_graph txs)).1, r.nodes = [u]) ∧
       (hasEdgePair (build_graph txs) u u = false →
        ∀ r ∈ (detect_cycles (build_graph txs)).1, u ∉ r.nodes))) ∧
    ((detect_cycles (build_graph txs)).1.Pairwise
      (fun r1 r2 => ∀ x, x ∈ r1.nodes → x ∉ r2.nodes)) := by
  have hwf := wf_build_graph txs
  refine ⟨?_, ?_, ?_, rings_pairwise_disjoint _ hwf⟩
  · intro r hr u hu
    have hcomp := (ring_nodes_comp hr).1
    have hun : u ∈ (build_graph txs).nodes := by
      obtain ⟨w, _, heq⟩ := comps_are_sccs hcomp
      exact sccOf_subset_nodes (heq ▸ hu)
    have heqscc : r.nodes = sccOf (build_graph txs) u := comp_eq_sccOf_mem hwf hcomp hu
    refine ⟨hun, fun x => ?_⟩
    rw [heqscc]
    exact mem_sccOf_iff hwf hun
  · rintro u hu ⟨v, hv, hne, hscc⟩
    obtain ⟨C, hC, huC⟩ := comps_cover hwf hu
    have heq : C = sccOf (build_graph txs) u := comp_eq_sccOf_mem hwf hC huC
    have hvmem : v ∈ sccOf (build_graph txs) u := (mem_sccOf_iff hwf hu).2 ⟨hv, hscc⟩
    have hlen : 1 < C.length := by
      rw [heq]
      exact one_lt_length_of_two_mem (sccOf_nodup hwf u) hvmem (mem_sccOf_self hwf hu) hne
    have hcyc : has_cycle (subgraphOf (build_graph txs) C) = true := by
      rw [heq]
      exact has_cycle_of_nontrivial_scc hwf hu hvmem hne
    have hqual : qualifiesRing (build_graph txs) C = true := by
      unfold qualifiesRing
      simp [hlen, hcyc]
    have hfilt : C ∈ (strongly_connected_components (build_graph txs)).filter
        (qualifiesRing (build_graph txs)) := List.mem_filter.2 ⟨hC, hqual⟩
    rw [← detect_cycles_nodes_shape] at hfilt
    obtain ⟨r, hr, hrn⟩ := List.mem_map.1 hfilt
    exact ⟨r, hr, hrn.symm ▸ huC⟩
  · intro u hu hsingle
    have hsccu : sccOf (build_graph txs) u = [u] := by
      refine singleton_of_all_eq (sccOf_nodup hwf u) (mem_sccOf_self hwf hu) ?_
      intro v hv
      obtain ⟨hvn, hscc⟩ := (mem_sccOf_iff hwf hu).1 hv
      exact hsingle v hvn hscc
    constructor
    · intro hloop
      obtain ⟨C, hC, huC⟩ := comps_cover hwf hu
      have heq : C = [u] := by
        rw [comp_eq_sccOf_mem hwf hC huC, hsccu]
      have hqual : qualifiesRing (build_graph txs) C = true := by
        rw [heq]
        simp [qualifiesRing, hloop]
      have hfilt : C ∈ (strongly_connected_components (build_graph txs)).filter
          (qualifiesRing (build_graph txs)) := List.mem_filter.2 ⟨hC, hqual⟩
      rw [← detect_cycles_nodes_shape] at hfilt
      obtain ⟨r, hr, hrn⟩ := List.mem_map.1 hfilt
      exact ⟨r, hr, hrn.trans heq⟩
    · intro hloop r hr hur
      have hcomp := (ring_nodes_comp hr).1
      have heqr : r.nodes = sccOf (build_graph txs) u := comp_eq_sccOf_mem hwf hcomp hur
      have hq := (ring_nodes_comp hr).2
      rw [heqr, hsccu] at hq
      simp [qualifiesRing, hloop] at hq

/-- C4 witness: in the A → B → C → A batch, account A lies in a detected
ring (its SCC is non-trivial: B is mutually reachable with A). -/
theorem c4_witness :
    ∃ r ∈ (detect_cycles (build_graph txsCycle)).1, "A" ∈ r.nodes := by
  have e1 : edgeRel (build_graph txsCycle) "A" "B" := by unfold edgeRel; decide
  have e2 : edgeRel (build_graph txsCycle) "B" "C" := by unfold edgeRel; decide
  have e3 : edgeRel (build_graph txsCycle) "C" "A" := by unfold edgeRel; decide
  exact (c4_thm txsCycle).2.1 "A" (by decide)
    ⟨"B", by decide, by decide,
      ⟨Relation.ReflTransGen.single e1,
        Relation.ReflTransGen.head e2 (Relation.ReflTransGen.single e3)⟩⟩
